import Mathlib

/-!
Verification model of the `untar` repository.

The decoder model below is a shallow embedding of `src/decompress.rs`
(`ZDecoder`, the legacy Unix `compress` (.Z) LZW decoder).  Machine
integers are modelled as `Nat`; the `u32::MAX` sentinel used for the
`prefix` field and for root table entries is modelled as `Option.none`.
Bit operations of the source are translated as follows (exact on `Nat`,
since all reachable values fit in `u64`):
`x & 0x1f` = `x % 32`, `x & ((1 << w) - 1)` = `x % 2 ^ w`,
`x >> w` = `x / 2 ^ w`, `(x & 0x80) != 0` = `x.testBit 7`.
A Rust panic (out-of-bounds index) is modelled by the explicit error
value `ZErr.panicked`; running out of recursion fuel (which we prove
cannot happen on states the program reaches) by `ZErr.diverged`.
-/

set_option maxRecDepth 16384

namespace Untar

/-- Errors of the decoder model.  `malformed` is the
`io::ErrorKind::InvalidData` "Invalid LZW code" error of the source;
`panicked` marks a Rust panic (out-of-bounds slice index);
`diverged` marks fuel exhaustion of the model (never reached from the
entry points, as proved below). -/
inductive ZErr where
  | malformed : ZErr
  | panicked : ZErr
  | diverged : ZErr
deriving DecidableEq, Repr

/-- The fields of `ZDecoder` that the per-code decoding logic reads and
writes (everything except the bit-reader fields and the inner reader).
Field names follow the Rust struct; the source field `prefix` is called
`prevCode` here, with `none` for the `u32::MAX` sentinel. -/
structure ZCore where
  eof : Bool
  max_bits : Nat
  block_mode : Bool
  current_bits : Nat
  max_code : Nat
  prefixes : List (Option Nat)
  chars : List Nat
  prevCode : Option Nat
deriving DecidableEq, Repr

/-- Full decoder state: core plus the bit accumulator (`buffer`,
`bits_in_buffer`) and the remaining bytes of the inner reader. -/
structure ZState where
  core : ZCore
  buffer : Nat
  bits_in_buffer : Nat
  input : List Nat
deriving DecidableEq, Repr

/-- The 256 seeded root prefixes (`u32::MAX` each), plus the reserved
CLEAR slot when block mode is on (`ZDecoder::new`, lines 67-74). -/
def seedPrefixes (bm : Bool) : List (Option Nat) :=
  List.replicate 256 none ++ if bm then [none] else []

/-- The seeded root chars `0..=255`, plus the `0` byte stored in the
reserved CLEAR slot when block mode is on. -/
def seedChars (bm : Bool) : List Nat :=
  List.range 256 ++ if bm then [0] else []

/-- `ZDecoder::empty`: the state used when the 3-byte header is missing
or its magic bytes mismatch. -/
def ZDecoder.empty : ZState :=
  { core := { eof := true, max_bits := 0, block_mode := false,
              current_bits := 0, max_code := 0, prefixes := [],
              chars := [], prevCode := none },
    buffer := 0, bits_in_buffer := 0, input := [] }

/-- `ZDecoder::new`: read the 3-byte header, check the magic bytes
`0x1f 0x9d`, take `max_bits` from the low 5 bits and `block_mode` from
the high bit of the control byte, and seed the table. -/
def ZDecoder.new (inp : List Nat) : ZState :=
  match inp with
  | h0 :: h1 :: h2 :: rest =>
    if h0 = 0x1f ∧ h1 = 0x9d then
      let mb := h2 % 32
      let bm := h2.testBit 7
      { core := { eof := false, max_bits := mb, block_mode := bm,
                  current_bits := 9, max_code := 2 ^ 9 - 1,
                  prefixes := seedPrefixes bm, chars := seedChars bm,
                  prevCode := none },
        buffer := 0, bits_in_buffer := 0, input := rest }
    else ZDecoder.empty
  | _ => ZDecoder.empty

/-- The refill loop of `ZDecoder::read_code` (lines 112-119): pull whole
bytes into the accumulator until at least `need` bits are available;
`none` models the `read_exact` failure (end of the inner stream). -/
def fillBuffer : List Nat → Nat → Nat → Nat → Option (Nat × Nat × List Nat)
  | [], buf, bits, need => if bits < need then none else some (buf, bits, [])
  | b :: rest, buf, bits, need =>
    if bits < need then fillBuffer rest (buf ||| (b <<< bits)) (bits + 8) need
    else some (buf, bits, b :: rest)

/-- `ZDecoder::read_code`: refill the accumulator, then take the low
`current_bits` bits as the code.  On `none` the caller sets `eof`; the
partial accumulator updates of the failing refill are dropped here, which
is unobservable because the state is never read again. -/
def read_code (st : ZState) : Option (Nat × ZState) :=
  match fillBuffer st.input st.buffer st.bits_in_buffer st.core.current_bits with
  | none => none
  | some (buf, bits, rest) =>
    some (buf % 2 ^ st.core.current_bits,
          { st with buffer := buf / 2 ^ st.core.current_bits,
                    bits_in_buffer := bits - st.core.current_bits,
                    input := rest })

/-- The walk of `ZDecoder::expand_code` (lines 127-136), accumulator
style: pushing each byte and finally reversing is the same as prepending
to `acc`.  The fuel argument makes the walk total; an out-of-bounds
index (a Rust panic) and fuel exhaustion (a diverging walk) both give
`none`.  The caller passes fuel `code + 1`, which suffices whenever the
table's back-references decrease, as they do in every reachable state. -/
def expandGo (pfx : List (Option Nat)) (chs : List Nat) :
    Nat → Nat → List Nat → Option (List Nat)
  | 0, _, _ => none
  | fuel + 1, curr, acc =>
    match chs[curr]?, pfx[curr]? with
    | some c, some none => some (c :: acc)
    | some c, some (some p) => expandGo pfx chs fuel p (c :: acc)
    | _, _ => none

/-- `ZDecoder::expand_code`. -/
def expand_code (pfx : List (Option Nat)) (chs : List Nat) (code : Nat) :
    Option (List Nat) :=
  expandGo pfx chs (code + 1) code []

/-- The CLEAR handling of `ZDecoder::read` (lines 156-162): truncate the
table back to 257 entries, reset the code width to 9 and the previous
code to the sentinel. -/
def applyClear (c : ZCore) : ZCore :=
  { c with prefixes := c.prefixes.take 257, chars := c.chars.take 257,
           current_bits := 9, max_code := 2 ^ 9 - 1, prevCode := none }

/-- Code resolution of `ZDecoder::read` (lines 168-176): in-table
expansion, the `code == len` KwKwK special case (expansion of the
previous code plus a copy of its first byte, with `output_buffer[0]` on
an empty buffer a panic), or the "Invalid LZW code" error. -/
def kwkwkOut (c : ZCore) (p : Nat) : Except ZErr (List Nat) :=
  match expand_code c.prefixes c.chars p with
  | some out =>
    match out with
    | [] => .error .panicked
    | b :: _ => .ok (out ++ [b])
  | none => .error .panicked

def resolveCode (c : ZCore) (code : Nat) : Except ZErr (List Nat) :=
  if code < c.prefixes.length then
    match expand_code c.prefixes c.chars code with
    | some out => .ok out
    | none => .error .panicked
  else if code = c.prefixes.length ∧ c.prevCode ≠ none then
    match c.prevCode with
    | some p => kwkwkOut c p
    | none => .error .malformed
  else .error .malformed

/-- The unconditional table push and width growth of lines 179-186:
append `(prefix, out[0])`, and if the new table length exceeds
`max_code` while below `max_bits`, widen by one.  `prevCode` becomes the
code just processed (line 188). -/
def pushedCore (c : ZCore) (code b0 : Nat) : ZCore :=
  let pfx2 := c.prefixes ++ [c.prevCode]
  let chs2 := c.chars ++ [b0]
  if pfx2.length > c.max_code ∧ c.current_bits < c.max_bits then
    { c with prefixes := pfx2, chars := chs2,
             current_bits := c.current_bits + 1,
             max_code := 2 ^ (c.current_bits + 1) - 1,
             prevCode := some code }
  else { c with prefixes := pfx2, chars := chs2, prevCode := some code }

/-- Lines 178-188: push a new entry when a previous code exists and the
table is not full (reading `output_buffer[0]`, a panic on an empty
buffer), then record the current code as the previous code. -/
def pushEntry (c : ZCore) (code : Nat) (out : List Nat) :
    Except ZErr (List Nat × ZCore) :=
  if c.prevCode ≠ none ∧ c.prefixes.length < 2 ^ c.max_bits then
    match out with
    | [] => .error .panicked
    | b0 :: _ => .ok (out, pushedCore c code b0)
  else .ok (out, { c with prevCode := some code })

/-- The core state after a non-CLEAR code whose expansion starts with
byte `b0`. -/
def nextCore (c : ZCore) (code b0 : Nat) : ZCore :=
  if c.prevCode ≠ none ∧ c.prefixes.length < 2 ^ c.max_bits then
    pushedCore c code b0
  else { c with prevCode := some code }

/-- One non-CLEAR code of `ZDecoder::read` (lines 165-188): resolve,
then push/update. -/
def stepCode (c : ZCore) (code : Nat) : Except ZErr (List Nat × ZCore) :=
  match resolveCode c code with
  | .error e => .error e
  | .ok out => pushEntry c code out

/-- The main loop of `ZDecoder::read` driven to end of stream: the
concatenation of everything a caller reading until `Ok(0)` would get, or
the error that aborts the entry.  Fuel decreases once per code read;
every code consumes at least 9 bits, so the fuel chosen in `decompress`
never runs out (proved below). -/
def runZ : Nat → ZState → Except ZErr (List Nat)
  | 0, _ => .error .diverged
  | fuel + 1, st =>
    if st.core.eof then .ok []
    else
      match read_code st with
      | none => .ok []
      | some (code, st1) =>
        if st1.core.block_mode = true ∧ code = 256 then
          runZ fuel { st1 with core := applyClear st1.core }
        else
          match stepCode st1.core code with
          | .error e => .error e
          | .ok (out, c2) =>
            match runZ fuel { st1 with core := c2 } with
            | .ok rest => .ok (out ++ rest)
            | .error e => .error e

/-- Decode a whole `.Z` byte stream to end of stream. -/
def decompress (inp : List Nat) : Except ZErr (List Nat) :=
  runZ (inp.length + 1) (ZDecoder.new inp)

/-- The same per-code state machine at the level of an already-extracted
code sequence (the bit-reading layer stripped away); used to relate the
byte-level decoder to the encoder model. -/
def runCodes : ZCore → List Nat → Except ZErr (List Nat)
  | _, [] => .ok []
  | c, code :: rest =>
    if c.block_mode = true ∧ code = 256 then runCodes (applyClear c) rest
    else
      match stepCode c code with
      | .error e => .error e
      | .ok (out, c2) =>
        match runCodes c2 rest with
        | .ok tail => .ok (out ++ tail)
        | .error e => .error e

/-! ### The legacy `compress` encoder, modelled from the spec

The encoder itself is not part of this repository (spec §1: "compression
(encoding) is not supported"); the spec treats it as the external
producer of the stream format that §3 and §4.2 describe.  The model
below is the inverse of that format description: classic LZW longest
match over a dictionary seeded exactly like the decoder's (spec §4.2
step 2), codes packed little-endian with no alignment padding (step 3),
code width driven by the decoder's own table-growth rule (§3
"BitReader state", §4.2 step 6), and an optional mid-stream CLEAR in
block mode (step 4), here decided by an arbitrary policy list. -/

/-- Modelled from the spec: the encoder's dictionary, seeded with the
256 single-byte strings at codes 0-255; in block mode code 256 is the
reserved CLEAR slot, represented by the empty string, which can never be
looked up (all looked-up strings are nonempty). -/
def seedDict (bm : Bool) : List (List Nat) :=
  (List.range 256).map (fun i => [i]) ++ if bm then [[]] else []

/-- Number of seeded codes: 257 in block mode, 256 otherwise. -/
def seedLen (bm : Bool) : Nat := if bm then 257 else 256

/-- Modelled from the spec: encoder state.  `dict` is the string
dictionary; `declen`, `bits` and `first` shadow the decoder quantities
that drive code widths (spec §3 "BitReader state"): the decoder's table
length, its current code width, and whether its previous-code register
is still the sentinel. -/
structure EncState where
  dict : List (List Nat)
  bits : Nat
  declen : Nat
  first : Bool
  maxBits : Nat
  blockMode : Bool
deriving DecidableEq, Repr

/-- Modelled from the spec: initial encoder state for a given block-mode
flag and `max_code_bits`. -/
def encInit (bm : Bool) (b : Nat) : EncState :=
  { dict := seedDict bm, bits := 9, declen := seedLen bm,
    first := true, maxBits := b, blockMode := bm }

/-- Modelled from the spec (§4.2 step 6): after one code emission,
advance the shadowed decoder quantities — the decoder appends one table
entry when a previous code exists and the table is not full, and bumps
the code width when the new table length exceeds the current width's
code space. -/
def afterEmit (s : EncState) : EncState :=
  if s.first then { s with first := false }
  else if s.declen < 2 ^ s.maxBits then
    let dl := s.declen + 1
    if dl > 2 ^ s.bits - 1 ∧ s.bits < s.maxBits then
      { s with declen := dl, bits := s.bits + 1 }
    else { s with declen := dl }
  else s

/-- Modelled from the spec: append a new dictionary string unless the
dictionary already holds `2 ^ max_code_bits` entries. -/
def addEntry (s : EncState) (e : List Nat) : EncState :=
  if s.dict.length < 2 ^ s.maxBits then { s with dict := s.dict ++ [e] }
  else s

/-- Modelled from the spec (§4.2 step 4): a CLEAR discards all
dictionary growth and resumes from the seeded state with width 9. -/
def encReset (s : EncState) : EncState :=
  { s with dict := seedDict s.blockMode, bits := 9,
           declen := seedLen s.blockMode, first := true }

/-- Modelled from the spec: the code of a dictionary string is its
index (first occurrence) in the dictionary. -/
def idxOf : List (List Nat) → List Nat → Nat
  | [], _ => 0
  | d :: rest, w => if d = w then 0 else idxOf rest w + 1

/-- Modelled from the spec: the LZW longest-match loop.  `w` is the
current match (always in `dict` once nonempty).  On a mismatch the code
for `w` is emitted at the current shadow width, the string `w ++ [ch]`
is added, and in block mode the policy list may request a CLEAR at this
emission point.  Output is the `(width, code)` sequence. -/
def encodeLoop : EncState → List Nat → List Nat → List Bool → List (Nat × Nat)
  | s, w, [], _ => if w = [] then [] else [(s.bits, idxOf s.dict w)]
  | s, w, ch :: rest, pol =>
    if (w ++ [ch]) ∈ s.dict then
      encodeLoop s (w ++ [ch]) rest pol
    else
      let k := idxOf s.dict w
      let s1 := addEntry (afterEmit s) (w ++ [ch])
      match pol with
      | true :: ptl =>
        if s1.blockMode then
          (s.bits, k) :: (s1.bits, 256) :: encodeLoop (encReset s1) [ch] rest ptl
        else (s.bits, k) :: encodeLoop s1 [ch] rest ptl
      | false :: ptl => (s.bits, k) :: encodeLoop s1 [ch] rest ptl
      | [] => (s.bits, k) :: encodeLoop s1 [ch] rest []

/-- The value of a `(width, code)` sequence packed little-endian into
one big number: the first code occupies the lowest bits. -/
def packVal : List (Nat × Nat) → Nat
  | [] => 0
  | (w, k) :: rest => k + 2 ^ w * packVal rest

/-- Total bit length of a `(width, code)` sequence. -/
def sumW : List (Nat × Nat) → Nat
  | [] => 0
  | (w, _) :: rest => w + sumW rest

/-- The low `cnt` bytes of `n`, little-endian. -/
def natBytesLE : Nat → Nat → List Nat
  | _, 0 => []
  | n, cnt + 1 => n % 256 :: natBytesLE (n / 256) cnt

/-- Little-endian value of a byte list. -/
def bytesVal : List Nat → Nat
  | [] => 0
  | b :: rest => b + 256 * bytesVal rest

/-- Modelled from the spec: a complete legacy `.Z` stream — the
`0x1f 0x9d` magic, the control byte (low 5 bits `max_code_bits`, high
bit `block_mode`), then the packed codes, the final partial byte padded
with zero bits. -/
def encodeZ (bm : Bool) (b : Nat) (pol : List Bool) (data : List Nat) :
    List Nat :=
  let pairs := encodeLoop (encInit bm b) [] data pol
  0x1f :: 0x9d :: (b + if bm then 128 else 0) ::
    natBytesLE (packVal pairs) ((sumW pairs + 7) / 8)

/-- The bit-layer contract between a packed `(width, code)` sequence and
the decoder: each code is packed at exactly the width the decoder will
use to read it, following the decoder's own state evolution. -/
def WidthsOK : ZCore → List (Nat × Nat) → Prop
  | _, [] => True
  | c, (w, k) :: rest =>
    w = c.current_bits ∧ k < 2 ^ w ∧
    (if c.block_mode = true ∧ k = 256 then WidthsOK (applyClear c) rest
     else ∀ out c2, stepCode c k = .ok (out, c2) → WidthsOK c2 rest)

/-- The coupling invariant between the encoder model's state `s` (with
current match `w`) and the decoder core `c` that has consumed all codes
emitted so far.  The decoder's table mirrors the encoder's dictionary
with a lag of one entry (the "pending" entry added by the encoder at an
emission is pushed by the decoder only while processing the *next*
code, which is what makes the KwKwK case work). -/
structure EncInv (s : EncState) (w : List Nat) (c : ZCore) : Prop where
  heof : c.eof = false
  hbm : c.block_mode = s.blockMode
  hB : c.max_bits = s.maxBits
  h9B : 9 ≤ s.maxBits
  hbits : c.current_bits = s.bits
  hmc : c.max_code = 2 ^ s.bits - 1
  h9b : 9 ≤ s.bits
  hbB : s.bits ≤ s.maxBits
  hlen : c.prefixes.length = s.declen
  hclen : c.chars.length = s.declen
  hseedlen : seedLen s.blockMode ≤ s.declen
  hcap : s.declen ≤ 2 ^ s.maxBits
  hlenbits : s.declen ≤ 2 ^ s.bits
  hlenbits' : s.bits < s.maxBits → s.declen < 2 ^ s.bits
  hdictlen : s.dict.length = if s.first then s.declen else
    (if s.declen < 2 ^ s.maxBits then s.declen + 1 else s.declen)
  hfirst : s.first = true → c.prevCode = none ∧ s.dict = seedDict s.blockMode ∧
    s.declen = seedLen s.blockMode ∧ s.bits = 9
  hprev : s.first = false → ∃ pc wprev, c.prevCode = some pc ∧ pc < s.declen ∧
    expand_code c.prefixes c.chars pc = some wprev ∧ wprev ≠ [] ∧
    (s.declen < 2 ^ s.maxBits → s.dict[s.declen]? = some (wprev ++ [w.headI]))
  hw : s.first = false → w ≠ []
  hwdict : w ≠ [] → w ∈ s.dict
  hexp : ∀ i, i < s.declen → ¬(s.blockMode = true ∧ i = 256) →
    ∃ li, s.dict[i]? = some li ∧ li ≠ [] ∧
      expand_code c.prefixes c.chars i = some li
  hdummy : s.blockMode = true → s.dict[256]? = some []
  hseedtake : c.prefixes.take (seedLen s.blockMode) = seedPrefixes s.blockMode ∧
    c.chars.take (seedLen s.blockMode) = seedChars s.blockMode

/-! ### Reachability of decoder states

`ZStep` is exactly one loop iteration of `ZDecoder::read` that consumed
a code (a CLEAR or a data code); `Reach` is its reflexive-transitive
closure, i.e. every state the decoder passes through during a decode. -/

/-- One code-consuming iteration of the `ZDecoder::read` loop. -/
inductive ZStep : ZState → ZState → Prop where
  | clear (st st1 : ZState) (code : Nat) :
      st.core.eof = false → read_code st = some (code, st1) →
      st1.core.block_mode = true → code = 256 →
      ZStep st { st1 with core := applyClear st1.core }
  | data (st st1 : ZState) (code : Nat) (out : List Nat) (c2 : ZCore) :
      st.core.eof = false → read_code st = some (code, st1) →
      ¬(st1.core.block_mode = true ∧ code = 256) →
      stepCode st1.core code = .ok (out, c2) →
      ZStep st { st1 with core := c2 }

/-- All states reachable by the decoder loop from a given state. -/
def Reach : ZState → ZState → Prop := Relation.ReflTransGen ZStep

/-- The decoder's core data invariant (established by `ZDecoder::new`
for any header declaring at least 9 code bits, preserved by every loop
iteration): table shape, decreasing back-references, width bounds and
the seeded leading entries. -/
def CoreInv (c : ZCore) : Prop :=
  c.eof = true ∨
  (9 ≤ c.max_bits ∧
   c.chars.length = c.prefixes.length ∧
   (∀ (i p : Nat), c.prefixes[i]? = some (some p) → p < i) ∧
   9 ≤ c.current_bits ∧ c.current_bits ≤ c.max_bits ∧
   c.max_code = 2 ^ c.current_bits - 1 ∧
   c.prefixes.length ≤ 2 ^ c.current_bits ∧
   (c.current_bits < c.max_bits → c.prefixes.length < 2 ^ c.current_bits) ∧
   c.prefixes.length ≤ 2 ^ c.max_bits ∧
   seedLen c.block_mode ≤ c.prefixes.length ∧
   (∀ p, c.prevCode = some p → p < c.prefixes.length) ∧
   c.prefixes.take (seedLen c.block_mode) = seedPrefixes c.block_mode ∧
   c.chars.take (seedLen c.block_mode) = seedChars c.block_mode)

/-! ### Format selection and filename normalization

Model of `get_format` (src/decompress.rs lines 10-18) and of the
filename normalization `path.trim_end_matches(".gz").trim_end_matches(".Z")`
used by `Processor::process_tar` (src/processor.rs lines 41 and 58).
Rust strings are modelled as `List Char`. -/

inductive DecompressionFormat where
  | Gzip : DecompressionFormat
  | UnixCompress : DecompressionFormat
  | None : DecompressionFormat
deriving DecidableEq, Repr

def gzSuffix : List Char := ['.', 'g', 'z']

def zSuffix : List Char := ['.', 'Z']

/-- `get_format`: `.gz` checked first, then `.Z`, else pass-through. -/
def get_format (filename : List Char) : DecompressionFormat :=
  if gzSuffix.isSuffixOf filename then .Gzip
  else if zSuffix.isSuffixOf filename then .UnixCompress
  else .None

/-- Rust `str::trim_end_matches`: repeatedly remove the suffix while it
matches.  The fuel `s.length` bounds the number of removals (each
removal of our nonempty patterns shortens the string). -/
def trimEndGo (pat : List Char) : Nat → List Char → List Char
  | 0, s => s
  | fuel + 1, s =>
    if pat ≠ [] ∧ pat.isSuffixOf s then
      trimEndGo pat fuel (s.take (s.length - pat.length))
    else s

def trim_end_matches (s pat : List Char) : List Char :=
  trimEndGo pat s.length s

/-- The normalized filename computed by `process_tar`:
`path.trim_end_matches(".gz").trim_end_matches(".Z")`. -/
def normalizeName (path : List Char) : List Char :=
  trim_end_matches (trim_end_matches path gzSuffix) zSuffix

/-- Modelled from the spec's words for comparison (§4.1: "the
normalized filename with the corresponding suffix stripped"): strip
exactly one recognized suffix, the input unchanged otherwise. -/
def stripOneSuffix (path : List Char) : List Char :=
  if gzSuffix.isSuffixOf path then path.take (path.length - 3)
  else if zSuffix.isSuffixOf path then path.take (path.length - 2)
  else path

/-! ### Upload task and end-of-run validation

Models of the upload task closure (src/processor.rs lines 67-88), the
join loop (lines 118-120) and the manifest cross-check (lines 123-128).
The HDFS client is the spec's external collaborator; its create/write/
close operations are modelled as always succeeding, so the only failure
the task model can report is the size mismatch. -/

inductive UploadErr where
  | sizeMismatch : Nat → Nat → UploadErr
deriving DecidableEq, Repr

/-- The channel drain of the upload task: receive chunks until the
channel closes, accumulating `total_written`. -/
def uploadDrain : List (List Nat) → Nat → Nat
  | [], total => total
  | chunk :: rest, total => uploadDrain rest (total + chunk.length)

/-- The upload task: drain all chunks, close the writer, then fail with
a size mismatch iff the accumulated total differs from the expected
size (arguments of `sizeMismatch`: expected, got). -/
def uploadTask (chunks : List (List Nat)) (expected : Nat) :
    Except UploadErr Unit :=
  let total := uploadDrain chunks 0
  if total ≠ expected then .error (.sizeMismatch expected total)
  else .ok ()

/-- Total payload of a chunk list (the spec-side quantity the upload
task's accumulator is compared against). -/
def chunksTotal (chunks : List (List Nat)) : Nat :=
  (chunks.map List.length).sum

inductive RunErr where
  | upload : UploadErr → RunErr
  | missingInTar : List Char → RunErr
deriving DecidableEq, Repr

/-- `for handle in upload_handles { handle.await?? }`: the first failed
task aborts the run. -/
def joinAll : List (Except UploadErr Unit) → Except RunErr Unit
  | [] => .ok ()
  | .error e :: _ => .error (.upload e)
  | .ok _ :: rest => joinAll rest

/-- The final manifest cross-check: the first manifest key not in the
processed set aborts the run with `Missing file in TAR`. -/
def crossCheck (keys processed : List (List Char)) : Except RunErr Unit :=
  match keys with
  | [] => .ok ()
  | k :: rest =>
    if k ∈ processed then crossCheck rest processed
    else .error (.missingInTar k)

/-- The tail of `process_tar` after the archive scan: join every pending
upload task, and only if all succeeded run the manifest cross-check. -/
def finalPhase (joins : List (Except UploadErr Unit))
    (keys processed : List (List Char)) : Except RunErr Unit :=
  match joinAll joins with
  | .error e => .error e
  | .ok _ => crossCheck keys processed

/-- A concrete path ending in two recognized suffixes, used to separate
the code's normalization from the spec's one-suffix description. -/
def exPath : List Char := ['a', '.', 'g', 'z', '.', 'g', 'z']

/-! ## Theorems -/

/-! ### Expansion walk lemmas -/

theorem expandGo_length (pfx : List (Option Nat)) (chs : List Nat) :
    ∀ fuel curr acc r, expandGo pfx chs fuel curr acc = some r →
      acc.length < r.length := by
  intro fuel
  induction fuel with
  | zero => intro curr acc r h; simp [expandGo] at h
  | succ fuel ih =>
    intro curr acc r h
    simp only [expandGo] at h
    cases hc : chs[curr]? with
    | none => rw [hc] at h; simp at h
    | some c =>
      cases hp : pfx[curr]? with
      | none => rw [hc, hp] at h; simp at h
      | some v =>
        rw [hc, hp] at h
        cases v with
        | none =>
          simp only [Option.some.injEq] at h
          rw [← h]
          simp
        | some p =>
          have := ih p (c :: acc) r h
          simp at this
          omega

theorem expand_code_ne_nil (pfx : List (Option Nat)) (chs : List Nat)
    (code : Nat) (r : List Nat) (h : expand_code pfx chs code = some r) :
    r ≠ [] := by
  have := expandGo_length pfx chs (code + 1) code [] r h
  intro hr
  rw [hr] at this
  simp at this

theorem expandGo_acc (pfx : List (Option Nat)) (chs : List Nat) :
    ∀ fuel curr acc,
      expandGo pfx chs fuel curr acc =
        Option.map (fun l => l ++ acc) (expandGo pfx chs fuel curr []) := by
  intro fuel
  induction fuel with
  | zero => intro curr acc; rfl
  | succ fuel ih =>
    intro curr acc
    simp only [expandGo]
    cases hc : chs[curr]? with
    | none => rfl
    | some c =>
      cases hp : pfx[curr]? with
      | none => rfl
      | some v =>
        cases v with
        | none => simp
        | some p =>
          simp only []
          rw [ih p (c :: acc), ih p [c]]
          cases expandGo pfx chs fuel p [] with
          | none => rfl
          | some l => simp

theorem expandGo_mono (pfx : List (Option Nat)) (chs : List Nat) :
    ∀ fuel fuel' curr acc r, fuel ≤ fuel' →
      expandGo pfx chs fuel curr acc = some r →
      expandGo pfx chs fuel' curr acc = some r := by
  intro fuel
  induction fuel with
  | zero => intro fuel' curr acc r _ h; simp [expandGo] at h
  | succ fuel ih =>
    intro fuel' curr acc r hle h
    obtain ⟨f2, rfl⟩ : ∃ f2, fuel' = f2 + 1 := ⟨fuel' - 1, by omega⟩
    simp only [expandGo] at h ⊢
    cases hc : chs[curr]? with
    | none => rw [hc] at h; simp at h
    | some c =>
      cases hp : pfx[curr]? with
      | none => rw [hc, hp] at h; simp at h
      | some v =>
        rw [hc, hp] at h
        cases v with
        | none => exact h
        | some p => exact ih f2 p (c :: acc) r (by omega) h

theorem expandGo_append (pfx p2 : List (Option Nat)) (chs c2 : List Nat) :
    ∀ fuel curr acc r, expandGo pfx chs fuel curr acc = some r →
      expandGo (pfx ++ p2) (chs ++ c2) fuel curr acc = some r := by
  intro fuel
  induction fuel with
  | zero => intro curr acc r h; simp [expandGo] at h
  | succ fuel ih =>
    intro curr acc r h
    simp only [expandGo] at h ⊢
    cases hc : chs[curr]? with
    | none => rw [hc] at h; simp at h
    | some c =>
      cases hp : pfx[curr]? with
      | none => rw [hc, hp] at h; simp at h
      | some v =>
        rw [hc, hp] at h
        have hcl : curr < chs.length := (List.getElem?_eq_some.mp hc).1
        have hpl : curr < pfx.length := (List.getElem?_eq_some.mp hp).1
        have hc' : (chs ++ c2)[curr]? = some c := by
          rw [List.getElem?_append]
          simp [hcl, hc]
        have hp' : (pfx ++ p2)[curr]? = some v := by
          rw [List.getElem?_append]
          simp [hpl, hp]
        rw [hc', hp']
        cases v with
        | none => exact h
        | some p => exact ih p (c :: acc) r h

theorem expand_code_append (pfx p2 : List (Option Nat)) (chs c2 : List Nat)
    (code : Nat) (r : List Nat) (h : expand_code pfx chs code = some r) :
    expand_code (pfx ++ p2) (chs ++ c2) code = some r :=
  expandGo_append pfx p2 chs c2 (code + 1) code [] r h

/-- Under the decoder's structural invariants every in-table code
expands successfully to a nonempty byte string. -/
theorem expand_code_success (pfx : List (Option Nat)) (chs : List Nat)
    (hlen : chs.length = pfx.length)
    (hlinks : ∀ (i p : Nat), pfx[i]? = some (some p) → p < i) :
    ∀ fuel curr acc, curr < fuel → curr < pfx.length →
      ∃ l, l ≠ [] ∧ expandGo pfx chs fuel curr acc = some (l ++ acc) := by
  intro fuel
  induction fuel with
  | zero => intro curr acc h _; omega
  | succ fuel ih =>
    intro curr acc hf hcurr
    have hcc : curr < chs.length := by omega
    have hc : chs[curr]? = some chs[curr] := List.getElem?_eq_getElem hcc
    have hpp : pfx[curr]? = some pfx[curr] := List.getElem?_eq_getElem hcurr
    simp only [expandGo]
    rw [hc, hpp]
    cases hval : pfx[curr] with
    | none => exact ⟨[chs[curr]], by simp, rfl⟩
    | some p =>
      have hplt : p < curr := hlinks curr p (by rw [hpp, hval])
      obtain ⟨l, hlne, hl⟩ := ih p (chs[curr] :: acc) (by omega) (by omega)
      refine ⟨l ++ [chs[curr]], by simp, ?_⟩
      show expandGo pfx chs fuel p (chs[curr] :: acc) =
        some ((l ++ [chs[curr]]) ++ acc)
      rw [hl]
      simp

theorem expand_code_total (pfx : List (Option Nat)) (chs : List Nat)
    (hlen : chs.length = pfx.length)
    (hlinks : ∀ (i p : Nat), pfx[i]? = some (some p) → p < i)
    (code : Nat) (hcode : code < pfx.length) :
    ∃ l, l ≠ [] ∧ expand_code pfx chs code = some l := by
  obtain ⟨l, hlne, hl⟩ :=
    expand_code_success pfx chs hlen hlinks (code + 1) code [] (by omega) hcode
  exact ⟨l, hlne, by simpa using hl⟩

/-! ### Step characterization (claims C3, C6) -/

theorem stepCode_of_resolve_error (c : ZCore) (code : Nat) (e : ZErr)
    (h : resolveCode c code = .error e) : stepCode c code = .error e := by
  simp [stepCode, h]

theorem stepCode_of_resolve_ok (c : ZCore) (code : Nat) (out : List Nat)
    (h : resolveCode c code = .ok out) :
    stepCode c code = pushEntry c code out := by
  simp [stepCode, h]

theorem pushEntry_cons (c : ZCore) (code b0 : Nat) (rest : List Nat) :
    pushEntry c code (b0 :: rest) = .ok (b0 :: rest, nextCore c code b0) := by
  unfold pushEntry nextCore
  by_cases h : c.prevCode ≠ none ∧ c.prefixes.length < 2 ^ c.max_bits
  · rw [if_pos h, if_pos h]
  · rw [if_neg h, if_neg h]

theorem pushEntry_ne_malformed (c : ZCore) (code : Nat) (out : List Nat) :
    pushEntry c code out ≠ .error .malformed := by
  unfold pushEntry
  by_cases h : c.prevCode ≠ none ∧ c.prefixes.length < 2 ^ c.max_bits
  · rw [if_pos h]
    cases out <;> simp
  · rw [if_neg h]; simp

/-- C3: when the code read equals the current table length and a
previous code exists, the emitted expansion is the expansion of the
previous code followed by one extra copy of its first byte. -/
theorem c3_kwkwk_step (c : ZCore) (code p : Nat) (exp : List Nat)
    (hcode : code = c.prefixes.length) (hp : c.prevCode = some p)
    (hexp : expand_code c.prefixes c.chars p = some exp) :
    ∃ c2, stepCode c code = .ok (exp ++ [exp.headI], c2) := by
  obtain ⟨b, rest, rfl⟩ : ∃ b rest, exp = b :: rest := by
    cases hx : exp with
    | nil => exact absurd hx (expand_code_ne_nil _ _ _ _ hexp)
    | cons b rest => exact ⟨b, rest, rfl⟩
  have hres : resolveCode c code = .ok ((b :: rest) ++ [b]) := by
    simp [resolveCode, kwkwkOut, hcode, hp, hexp]
  refine ⟨nextCore c code b, ?_⟩
  rw [stepCode_of_resolve_ok c code _ hres]
  have hshape : (b :: rest) ++ [b] = b :: (rest ++ [b]) := rfl
  rw [hshape, pushEntry_cons]
  rfl

theorem c3_witness :
    ∃ c2, stepCode { (ZDecoder.new [31, 157, 16, 0]).core with prevCode := some 65 }
        256 = .ok ([65, 65], c2) := by
  have h := c3_kwkwk_step
    { (ZDecoder.new [31, 157, 16, 0]).core with prevCode := some 65 }
    256 65 [65] (by decide) rfl (by decide)
  simpa using h

theorem stepCode_malformed_of (c : ZCore) (code : Nat)
    (h1 : ¬ code < c.prefixes.length)
    (h2 : ¬ (code = c.prefixes.length ∧ c.prevCode ≠ none)) :
    stepCode c code = .error .malformed := by
  have hres : resolveCode c code = .error .malformed := by
    simp only [resolveCode, if_neg h1, if_neg h2]
  exact stepCode_of_resolve_error c code _ hres

theorem stepCode_not_malformed (c : ZCore) (code : Nat)
    (h : code < c.prefixes.length ∨ (code = c.prefixes.length ∧ c.prevCode ≠ none)) :
    stepCode c code ≠ .error .malformed := by
  rcases h with h1 | h2
  · cases hexp : expand_code c.prefixes c.chars code with
    | none =>
      have hres : resolveCode c code = .error .panicked := by
        simp [resolveCode, h1, hexp]
      rw [stepCode_of_resolve_error c code _ hres]
      simp
    | some out =>
      have hres : resolveCode c code = .ok out := by
        simp [resolveCode, h1, hexp]
      rw [stepCode_of_resolve_ok c code _ hres]
      exact pushEntry_ne_malformed c code out
  · have h1 : ¬ code < c.prefixes.length := by omega
    obtain ⟨p, hp⟩ : ∃ p, c.prevCode = some p := by
      cases hpv : c.prevCode with
      | none => exact absurd hpv h2.2
      | some p => exact ⟨p, rfl⟩
    cases hexp : expand_code c.prefixes c.chars p with
    | none =>
      have hres : resolveCode c code = .error .panicked := by
        simp [resolveCode, kwkwkOut, h1, h2.1, hp, hexp]
      rw [stepCode_of_resolve_error c code _ hres]
      simp
    | some out =>
      cases out with
      | nil =>
        have hres : resolveCode c code = .error .panicked := by
          simp [resolveCode, kwkwkOut, h1, h2.1, hp, hexp]
        rw [stepCode_of_resolve_error c code _ hres]
        simp
      | cons b rest =>
        have hres : resolveCode c code = .ok ((b :: rest) ++ [b]) := by
          simp [resolveCode, kwkwkOut, h1, h2.1, hp, hexp]
        rw [stepCode_of_resolve_ok c code _ hres]
        exact pushEntry_ne_malformed c code _

/-- C6: a code fails the entry's decode with the `Invalid LZW code`
(`MalformedStream`) error exactly when it is neither an index of an
existing table entry nor the next-code special case with a previous
code present. -/
theorem c6_malformed_iff (c : ZCore) (code : Nat) :
    stepCode c code = .error .malformed ↔
      (¬ code < c.prefixes.length ∧
       ¬ (code = c.prefixes.length ∧ c.prevCode ≠ none)) := by
  constructor
  · intro h
    by_cases h1 : code < c.prefixes.length
    · exact absurd h (stepCode_not_malformed c code (Or.inl h1))
    · by_cases h2 : code = c.prefixes.length ∧ c.prevCode ≠ none
      · exact absurd h (stepCode_not_malformed c code (Or.inr h2))
      · exact ⟨h1, h2⟩
  · intro ⟨h1, h2⟩
    exact stepCode_malformed_of c code h1 h2

/-! ### Bit-reader lemmas -/

theorem lor_shiftLeft_eq_add (a b n : Nat) (h : a < 2 ^ n) :
    a ||| (b <<< n) = a + 2 ^ n * b := by
  have hmod : (a ||| (b <<< n)) % 2 ^ n = a := by
    have ha : a % 2 ^ n = a := Nat.mod_eq_of_lt h
    conv_rhs => rw [← ha]
    apply Nat.eq_of_testBit_eq
    intro i
    rw [Nat.testBit_mod_two_pow, Nat.testBit_mod_two_pow, Nat.testBit_lor,
        Nat.testBit_shiftLeft]
    by_cases hi : i < n
    · have : ¬ i ≥ n := by omega
      simp [hi, this]
    · simp [hi]
  have hdiv : (a ||| (b <<< n)) / 2 ^ n = b := by
    rw [← Nat.shiftRight_eq_div_pow]
    apply Nat.eq_of_testBit_eq
    intro i
    rw [Nat.testBit_shiftRight, Nat.testBit_lor, Nat.testBit_shiftLeft]
    have ha : a.testBit (n + i) = false :=
      Nat.testBit_lt_two_pow
        (lt_of_lt_of_le h (Nat.pow_le_pow_right (by norm_num) (by omega)))
    have hge : n + i ≥ n := by omega
    simp [ha, hge]
  have htot := Nat.div_add_mod (a ||| (b <<< n)) (2 ^ n)
  rw [hmod, hdiv] at htot
  omega

theorem fillBuffer_none_bound (inp : List Nat) :
    ∀ buf bits need, fillBuffer inp buf bits need = none →
      bits + 8 * inp.length < need := by
  induction inp with
  | nil =>
    intro buf bits need h
    simp only [fillBuffer] at h
    by_cases hb : bits < need
    · simpa using hb
    · rw [if_neg hb] at h; cases h
  | cons b rest ih =>
    intro buf bits need h
    simp only [fillBuffer] at h
    by_cases hb : bits < need
    · rw [if_pos hb] at h
      have := ih _ _ _ h
      simp only [List.length_cons]
      omega
    · rw [if_neg hb] at h; cases h

theorem fillBuffer_some_spec (inp : List Nat) :
    ∀ buf bits need b2 t2 rest,
      fillBuffer inp buf bits need = some (b2, t2, rest) →
      need ≤ t2 ∧ t2 + 8 * rest.length = bits + 8 * inp.length ∧
      (buf < 2 ^ bits → (∀ x ∈ inp, x < 256) →
        b2 < 2 ^ t2 ∧
        b2 + 2 ^ t2 * bytesVal rest = buf + 2 ^ bits * bytesVal inp ∧
        (∀ x ∈ rest, x < 256)) := by
  induction inp with
  | nil =>
    intro buf bits need b2 t2 rest h
    simp only [fillBuffer] at h
    by_cases hb : bits < need
    · rw [if_pos hb] at h; cases h
    · rw [if_neg hb] at h
      obtain ⟨rfl, rfl, rfl⟩ : buf = b2 ∧ bits = t2 ∧ ([] : List Nat) = rest := by
        cases h; exact ⟨rfl, rfl, rfl⟩
      refine ⟨by omega, by simp, ?_⟩
      intro hbuf _
      exact ⟨hbuf, by simp [bytesVal], by simp⟩
  | cons b tail ih =>
    intro buf bits need b2 t2 rest h
    simp only [fillBuffer] at h
    by_cases hb : bits < need
    · rw [if_pos hb] at h
      obtain ⟨h1, h2, h3⟩ := ih _ _ _ _ _ _ h
      refine ⟨h1, by simp only [List.length_cons]; omega, ?_⟩
      intro hbuf hbytes
      have hlt : buf ||| (b <<< bits) < 2 ^ (bits + 8) := by
        rw [lor_shiftLeft_eq_add buf b bits hbuf]
        have hb256 : b < 256 := hbytes b (by simp)
        have : 2 ^ (bits + 8) = 2 ^ bits * 256 := by
          rw [pow_add]; norm_num
        have hpos : 0 < 2 ^ bits := Nat.pos_pow_of_pos bits (by norm_num)
        nlinarith
      obtain ⟨hb2, hval, hrest⟩ := h3 hlt (fun x hx => hbytes x (by simp [hx]))
      refine ⟨hb2, ?_, hrest⟩
      rw [hval, lor_shiftLeft_eq_add buf b bits hbuf]
      simp only [bytesVal]
      rw [pow_add]
      ring
    · rw [if_neg hb] at h
      obtain ⟨rfl, rfl, rfl⟩ : buf = b2 ∧ bits = t2 ∧ b :: tail = rest := by
        cases h; exact ⟨rfl, rfl, rfl⟩
      refine ⟨by omega, by simp, ?_⟩
      intro hbuf hbytes
      exact ⟨hbuf, rfl, hbytes⟩

theorem read_code_some (st st1 : ZState) (code : Nat)
    (h : read_code st = some (code, st1)) :
    st1.core = st.core ∧ code < 2 ^ st.core.current_bits ∧
    8 * st1.input.length + st1.bits_in_buffer + st.core.current_bits =
      8 * st.input.length + st.bits_in_buffer := by
  unfold read_code at h
  cases hf : fillBuffer st.input st.buffer st.bits_in_buffer st.core.current_bits with
  | none => rw [hf] at h; cases h
  | some trip =>
    obtain ⟨b2, t2, rest⟩ := trip
    rw [hf] at h
    obtain ⟨h1, h2⟩ := fillBuffer_some_spec _ _ _ _ _ _ _ hf
    simp only [Option.some.injEq, Prod.mk.injEq] at h
    obtain ⟨hcode, hst1⟩ := h
    refine ⟨by rw [← hst1], ?_, ?_⟩
    · rw [← hcode]
      exact Nat.mod_lt _ (Nat.pos_pow_of_pos _ (by norm_num))
    · rw [← hst1]
      simp only
      omega

/-- C2: with block mode on, reading code 256 truncates the table back
to exactly its 257 seeded entries, resets the code width to 9 and the
previous code to the sentinel, emits nothing for that code, and leaves
every previously allocated code (≥ 257) outside the table. -/
theorem c2_clear_semantics (st st1 : ZState) (fuel : Nat)
    (heof : st.core.eof = false)
    (hrc : read_code st = some (256, st1))
    (hbm : st1.core.block_mode = true)
    (hlen : 257 ≤ st1.core.prefixes.length)
    (hseedp : st1.core.prefixes.take 257 = seedPrefixes true)
    (hseedc : st1.core.chars.take 257 = seedChars true) :
    runZ (fuel + 1) st = runZ fuel { st1 with core := applyClear st1.core } ∧
    (applyClear st1.core).prefixes = seedPrefixes true ∧
    (applyClear st1.core).chars = seedChars true ∧
    (applyClear st1.core).current_bits = 9 ∧
    (applyClear st1.core).prevCode = none ∧
    ∀ code, 257 ≤ code → ¬ code < (applyClear st1.core).prefixes.length := by
  refine ⟨?_, hseedp, hseedc, rfl, rfl, ?_⟩
  · simp only [runZ, heof, Bool.false_eq_true, if_false, hrc, hbm, and_self, if_true]
  · intro code hcode
    simp only [applyClear, List.length_take]
    omega

/-! ### Seed table facts -/

theorem seedPrefixes_eq_replicate (bm : Bool) :
    seedPrefixes bm = List.replicate (seedLen bm) none := by
  cases bm with
  | false => simp [seedPrefixes, seedLen]
  | true =>
    show List.replicate 256 none ++ [none] = List.replicate 257 none
    rw [← List.replicate_succ' 256 (none : Option Nat)]

theorem seedPrefixes_length (bm : Bool) :
    (seedPrefixes bm).length = seedLen bm := by
  rw [seedPrefixes_eq_replicate]; simp

theorem seedChars_length (bm : Bool) : (seedChars bm).length = seedLen bm := by
  cases bm <;> simp [seedChars, seedLen]

theorem seedPrefixes_getElem? (bm : Bool) (i : Nat) :
    (seedPrefixes bm)[i]? = if i < seedLen bm then some none else none := by
  rw [seedPrefixes_eq_replicate, List.getElem?_replicate]

theorem seedLen_le (bm : Bool) : 256 ≤ seedLen bm ∧ seedLen bm ≤ 257 := by
  cases bm <;> simp [seedLen]

/-! ### Step inversion -/

theorem kwkwkOut_ok_elim (c : ZCore) (p : Nat) (out : List Nat)
    (h : kwkwkOut c p = .ok out) :
    ∃ b rest, expand_code c.prefixes c.chars p = some (b :: rest) ∧
      out = (b :: rest) ++ [b] := by
  unfold kwkwkOut at h
  cases hexp : expand_code c.prefixes c.chars p with
  | none => rw [hexp] at h; cases h
  | some o =>
    rw [hexp] at h
    cases o with
    | nil => simp at h
    | cons b rest =>
      simp only [Except.ok.injEq] at h
      exact ⟨b, rest, rfl, h.symm⟩

theorem resolveCode_ok_elim (c : ZCore) (code : Nat) (out : List Nat)
    (h : resolveCode c code = .ok out) :
    (code < c.prefixes.length ∧ expand_code c.prefixes c.chars code = some out) ∨
    (code = c.prefixes.length ∧ ∃ p b rest, c.prevCode = some p ∧
      expand_code c.prefixes c.chars p = some (b :: rest) ∧
      out = (b :: rest) ++ [b]) := by
  unfold resolveCode at h
  by_cases h1 : code < c.prefixes.length
  · rw [if_pos h1] at h
    cases hexp : expand_code c.prefixes c.chars code with
    | none => rw [hexp] at h; cases h
    | some o =>
      rw [hexp] at h
      simp only [Except.ok.injEq] at h
      exact Or.inl ⟨h1, by rw [h]⟩

  · rw [if_neg h1] at h
    by_cases h2 : code = c.prefixes.length ∧ c.prevCode ≠ none
    · rw [if_pos h2] at h
      obtain ⟨p, hp⟩ : ∃ p, c.prevCode = some p := by
        cases hpv : c.prevCode with
        | none => exact absurd hpv h2.2
        | some p => exact ⟨p, rfl⟩
      rw [hp] at h
      have h' : kwkwkOut c p = .ok out := h
      obtain ⟨b, rest, hexp, hout⟩ := kwkwkOut_ok_elim c p out h'
      exact Or.inr ⟨h2.1, p, b, rest, hp, hexp, hout⟩
    · rw [if_neg h2] at h; cases h

theorem resolveCode_ok_ne_nil (c : ZCore) (code : Nat) (out : List Nat)
    (h : resolveCode c code = .ok out) : out ≠ [] := by
  rcases resolveCode_ok_elim c code out h with ⟨_, hexp⟩ | ⟨_, p, b, rest, _, _, hout⟩
  · exact expand_code_ne_nil _ _ _ _ hexp
  · rw [hout]; simp

theorem stepCode_ok_elim (c : ZCore) (code : Nat) (out : List Nat) (c2 : ZCore)
    (h : stepCode c code = .ok (out, c2)) :
    resolveCode c code = .ok out ∧
    ∃ b0 rest, out = b0 :: rest ∧ c2 = nextCore c code b0 := by
  cases hres : resolveCode c code with
  | error e => rw [stepCode_of_resolve_error _ _ _ hres] at h; cases h
  | ok o =>
    rw [stepCode_of_resolve_ok _ _ _ hres] at h
    obtain ⟨b0, rest, rfl⟩ : ∃ b0 rest, o = b0 :: rest := by
      have hne := resolveCode_ok_ne_nil c code o hres
      cases o with
      | nil => simp at hne
      | cons b0 rest => exact ⟨b0, rest, rfl⟩
    rw [pushEntry_cons] at h
    simp only [Except.ok.injEq, Prod.mk.injEq] at h
    obtain ⟨h1, h2⟩ := h
    refine ⟨by rw [h1], b0, rest, h1.symm, h2.symm⟩

theorem nextCore_no_push (c : ZCore) (code b0 : Nat)
    (h : ¬ (c.prevCode ≠ none ∧ c.prefixes.length < 2 ^ c.max_bits)) :
    nextCore c code b0 = { c with prevCode := some code } := by
  unfold nextCore
  rw [if_neg h]

theorem nextCore_push_bump (c : ZCore) (code b0 : Nat)
    (h : c.prevCode ≠ none ∧ c.prefixes.length < 2 ^ c.max_bits)
    (hb : c.prefixes.length + 1 > c.max_code ∧ c.current_bits < c.max_bits) :
    nextCore c code b0 =
      { c with prefixes := c.prefixes ++ [c.prevCode],
               chars := c.chars ++ [b0],
               current_bits := c.current_bits + 1,
               max_code := 2 ^ (c.current_bits + 1) - 1,
               prevCode := some code } := by
  unfold nextCore pushedCore
  rw [if_pos h, if_pos (by simpa using hb)]

theorem nextCore_push_no_bump (c : ZCore) (code b0 : Nat)
    (h : c.prevCode ≠ none ∧ c.prefixes.length < 2 ^ c.max_bits)
    (hb : ¬ (c.prefixes.length + 1 > c.max_code ∧ c.current_bits < c.max_bits)) :
    nextCore c code b0 =
      { c with prefixes := c.prefixes ++ [c.prevCode],
               chars := c.chars ++ [b0],
               prevCode := some code } := by
  unfold nextCore pushedCore
  rw [if_pos h, if_neg (by simpa using hb)]

/-! ### Invariant preservation -/

/-- Any core whose fields are the freshly seeded ones satisfies the
invariant, provided at least 9 code bits were declared. -/
theorem CoreInv_seed (c : ZCore) (heof : c.eof = false)
    (hmb : 9 ≤ c.max_bits) (hbits : c.current_bits = 9)
    (hmc : c.max_code = 2 ^ 9 - 1)
    (hpfx : c.prefixes = seedPrefixes c.block_mode)
    (hchs : c.chars = seedChars c.block_mode)
    (hprev : c.prevCode = none) : CoreInv c := by
  have hsl := seedLen_le c.block_mode
  have hpl : c.prefixes.length = seedLen c.block_mode := by
    rw [hpfx, seedPrefixes_length]
  have hcl : c.chars.length = seedLen c.block_mode := by
    rw [hchs, seedChars_length]
  have hpowmax : (2 : Nat) ^ 9 ≤ 2 ^ c.max_bits :=
    Nat.pow_le_pow_right (by norm_num) hmb
  norm_num at hpowmax
  refine Or.inr ⟨hmb, by omega, ?_, by omega, by omega, by rw [hbits]; exact hmc,
    ?_, ?_, ?_, ?_, ?_, ?_, ?_⟩
  · intro i p hip
    rw [hpfx, seedPrefixes_getElem?] at hip
    by_cases hi : i < seedLen c.block_mode
    · rw [if_pos hi] at hip; cases hip
    · rw [if_neg hi] at hip; cases hip
  · rw [hbits]; norm_num; omega
  · intro _; rw [hbits]; norm_num; omega
  · omega
  · omega
  · intro p hp; rw [hprev] at hp; cases hp
  · rw [hpfx, ← seedPrefixes_length c.block_mode, List.take_length]
  · rw [hchs, ← seedChars_length c.block_mode, List.take_length]

theorem CoreInv_new (inp : List Nat)
    (h9 : (ZDecoder.new inp).core.eof = false →
      9 ≤ (ZDecoder.new inp).core.max_bits) :
    CoreInv (ZDecoder.new inp).core := by
  match inp with
  | [] => exact Or.inl rfl
  | [_] => exact Or.inl rfl
  | [_, _] => exact Or.inl rfl
  | h0 :: h1 :: h2 :: rest =>
    by_cases hm : h0 = 0x1f ∧ h1 = 0x9d
    · have hstate : ZDecoder.new (h0 :: h1 :: h2 :: rest) =
        { core := { eof := false, max_bits := h2 % 32, block_mode := h2.testBit 7,
                    current_bits := 9, max_code := 2 ^ 9 - 1,
                    prefixes := seedPrefixes (h2.testBit 7),
                    chars := seedChars (h2.testBit 7), prevCode := none },
          buffer := 0, bits_in_buffer := 0, input := rest } := by
        simp [ZDecoder.new, hm]
      have h9' : 9 ≤ h2 % 32 := by
        have h := h9
        rw [hstate] at h
        exact h rfl
      rw [hstate]
      exact CoreInv_seed _ rfl h9' rfl rfl rfl rfl rfl
    · have hstate : ZDecoder.new (h0 :: h1 :: h2 :: rest) = ZDecoder.empty := by
        simp [ZDecoder.new, hm]
      rw [hstate]
      exact Or.inl rfl

theorem nextCore_inv (c : ZCore) (code b0 : Nat)
    (hInv : CoreInv c) (heof : c.eof = false)
    (hcode_le : code < c.prefixes.length ∨
      (code = c.prefixes.length ∧ c.prevCode ≠ none))
    (hcode_bits : code < 2 ^ c.current_bits) :
    CoreInv (nextCore c code b0) ∧
    (nextCore c code b0).eof = false ∧
    (nextCore c code b0).max_bits = c.max_bits ∧
    (nextCore c code b0).block_mode = c.block_mode ∧
    c.current_bits ≤ (nextCore c code b0).current_bits := by
  rcases hInv with hInv | hInv
  · rw [heof] at hInv; cases hInv
  obtain ⟨h9, hlen, hlinks, hb9, hbmax, hmc, hlb, hlb', hcap, hseedlen,
    hprev, hseedp, hseedc⟩ := hInv
  have hpow : (2 : Nat) ^ (c.current_bits + 1) = 2 * 2 ^ c.current_bits := by
    rw [pow_succ]; ring
  have hpowmax : (2 : Nat) ^ c.current_bits ≤ 2 ^ c.max_bits :=
    Nat.pow_le_pow_right (by norm_num) hbmax
  by_cases hpush : c.prevCode ≠ none ∧ c.prefixes.length < 2 ^ c.max_bits
  · -- a new entry is appended
    have hlinks2 : ∀ (i p : Nat),
        (c.prefixes ++ [c.prevCode])[i]? = some (some p) → p < i := by
      intro i p hip
      rw [List.getElem?_append] at hip
      by_cases hi : i < c.prefixes.length
      · rw [if_pos hi] at hip
        exact hlinks i p hip
      · rw [if_neg hi] at hip
        rcases hd : i - c.prefixes.length with _ | d
        · rw [hd] at hip
          simp only [List.getElem?_cons_zero, Option.some.injEq] at hip
          have := hprev p hip
          omega
        · rw [hd] at hip
          simp at hip
    have hseedp2 : (c.prefixes ++ [c.prevCode]).take (seedLen c.block_mode) =
        seedPrefixes c.block_mode := by
      rw [List.take_append_of_le_length hseedlen, hseedp]
    have hseedc2 : (c.chars ++ [b0]).take (seedLen c.block_mode) =
        seedChars c.block_mode := by
      rw [List.take_append_of_le_length (by omega), hseedc]
    have hcodelt : code ≤ c.prefixes.length := by
      rcases hcode_le with h | h
      · omega
      · omega
    by_cases hbump : c.prefixes.length + 1 > c.max_code ∧
        c.current_bits < c.max_bits
    · rw [nextCore_push_bump c code b0 hpush hbump]
      refine ⟨Or.inr ⟨h9, ?_, hlinks2,
        (show (9 : Nat) ≤ c.current_bits + 1 by omega),
        (show c.current_bits + 1 ≤ c.max_bits by omega), rfl, ?_, ?_, ?_, ?_,
        ?_, hseedp2, hseedc2⟩, heof, rfl, rfl,
        (show c.current_bits ≤ c.current_bits + 1 by omega)⟩
      · simp [hlen]
      · simp only [List.length_append, List.length_cons, List.length_nil]
        have : c.prefixes.length < 2 ^ c.current_bits := hlb' hbump.2
        omega
      · intro hlt
        simp only [List.length_append, List.length_cons, List.length_nil]
        have : c.prefixes.length < 2 ^ c.current_bits := hlb' hbump.2
        omega
      · simp only [List.length_append, List.length_cons, List.length_nil]
        omega
      · simp only [List.length_append, List.length_cons, List.length_nil]
        omega
      · intro p hp
        simp only [Option.some.injEq] at hp
        simp only [List.length_append, List.length_cons, List.length_nil]
        omega
    · rw [nextCore_push_no_bump c code b0 hpush hbump]
      have hnb : c.prefixes.length + 1 ≤ c.max_code ∨
          c.max_bits ≤ c.current_bits := by
        rcases Decidable.not_and_iff_or_not.mp hbump with h | h
        · left; omega
        · right; omega
      refine ⟨Or.inr ⟨h9, ?_, hlinks2, hb9, hbmax, hmc, ?_, ?_, ?_, ?_,
        ?_, hseedp2, hseedc2⟩, heof, rfl, rfl, by simp⟩
      · simp [hlen]
      · simp only [List.length_append, List.length_cons, List.length_nil]
        rcases hnb with h | h
        · omega
        · have heq : c.current_bits = c.max_bits := by omega
          rw [hmc] at *
          have h512 : (2:Nat) ^ 9 ≤ 2 ^ c.current_bits :=
            Nat.pow_le_pow_right (by norm_num) hb9
          rw [heq] at *
          omega
      · intro hlt
        replace hlt : c.current_bits < c.max_bits := hlt
        simp only [List.length_append, List.length_cons, List.length_nil]
        rcases hnb with h | h
        · omega
        · omega
      · simp only [List.length_append, List.length_cons, List.length_nil]
        omega
      · simp only [List.length_append, List.length_cons, List.length_nil]
        omega
      · intro p hp
        simp only [Option.some.injEq] at hp
        simp only [List.length_append, List.length_cons, List.length_nil]
        omega
  · -- no entry appended
    rw [nextCore_no_push c code b0 hpush]
    have hcodelt : code < c.prefixes.length := by
      rcases hcode_le with h | h
      · exact h
      · exfalso
        rcases Decidable.not_and_iff_or_not.mp hpush with hne | hfull
        · exact hne h.2
        · have : 2 ^ c.max_bits ≤ c.prefixes.length := by omega
          omega
    exact ⟨Or.inr ⟨h9, hlen, hlinks, hb9, hbmax, hmc, hlb, hlb', hcap,
      hseedlen, fun p hp => by
        replace hp : some code = some p := hp
        simp only [Option.some.injEq] at hp
        show p < c.prefixes.length
        omega,
      hseedp, hseedc⟩, heof, rfl, rfl, le_refl _⟩

theorem applyClear_inv (c : ZCore) (hInv : CoreInv c) (heof : c.eof = false)
    (hbm : c.block_mode = true) :
    CoreInv (applyClear c) ∧
    (applyClear c).eof = false ∧
    (applyClear c).max_bits = c.max_bits ∧
    (applyClear c).block_mode = c.block_mode := by
  rcases hInv with hInv | hInv
  · rw [heof] at hInv; cases hInv
  obtain ⟨h9, hlen, hlinks, hb9, hbmax, hmc, hlb, hlb', hcap, hseedlen,
    hprev, hseedp, hseedc⟩ := hInv
  have hsl : seedLen c.block_mode = 257 := by rw [hbm]; rfl
  rw [hsl] at hseedlen hseedp hseedc
  have hp2 : (applyClear c).prefixes = seedPrefixes c.block_mode := by
    show c.prefixes.take 257 = _
    rw [hseedp, hbm]
  have hc2 : (applyClear c).chars = seedChars c.block_mode := by
    show c.chars.take 257 = _
    rw [hseedc, hbm]
  have hlen2 : (applyClear c).prefixes.length = 257 := by
    rw [hp2, seedPrefixes_length, hbm]; rfl
  have hpowmax : (2 : Nat) ^ 9 ≤ 2 ^ c.max_bits :=
    Nat.pow_le_pow_right (by norm_num) h9
  have hcb : (applyClear c).current_bits = 9 := rfl
  have hmb2 : (applyClear c).max_bits = c.max_bits := rfl
  have hbm2 : (applyClear c).block_mode = c.block_mode := rfl
  refine ⟨Or.inr ⟨h9, ?_, ?_, le_refl _, h9, rfl, ?_, ?_, ?_, ?_, ?_, ?_, ?_⟩,
    heof, rfl, rfl⟩
  · rw [hp2, hc2, seedPrefixes_length, seedChars_length]
  · intro i p hip
    rw [hp2, seedPrefixes_getElem?] at hip
    by_cases hi : i < seedLen c.block_mode
    · rw [if_pos hi] at hip; cases hip
    · rw [if_neg hi] at hip; cases hip
  · rw [hlen2, hcb]; norm_num
  · intro _; rw [hlen2, hcb]; norm_num
  · rw [hlen2, hmb2]; norm_num at hpowmax ⊢; omega
  · rw [hlen2, hbm2, hbm]; rfl
  · intro p hp; cases hp
  · rw [hp2, hbm2, hbm]
    show (seedPrefixes true).take (seedLen true) = seedPrefixes true
    have hl : (seedPrefixes true).length = seedLen true := seedPrefixes_length true
    rw [← hl, List.take_length]
  · rw [hc2, hbm2, hbm]
    show (seedChars true).take (seedLen true) = seedChars true
    have hl : (seedChars true).length = seedLen true := seedChars_length true
    rw [← hl, List.take_length]

theorem CoreInv_bits9 (c : ZCore) (hInv : CoreInv c) (heof : c.eof = false) :
    9 ≤ c.current_bits := by
  rcases hInv with h | h
  · rw [heof] at h; cases h
  · exact h.2.2.2.1

theorem stepCode_ok_inv (c : ZCore) (code : Nat) (out : List Nat) (c2 : ZCore)
    (hInv : CoreInv c) (heof : c.eof = false)
    (hcode : code < 2 ^ c.current_bits)
    (h : stepCode c code = .ok (out, c2)) :
    CoreInv c2 ∧ c2.eof = false ∧ c2.max_bits = c.max_bits ∧
    c2.block_mode = c.block_mode ∧ c.current_bits ≤ c2.current_bits := by
  obtain ⟨hres, b0, rest, rfl, rfl⟩ := stepCode_ok_elim c code out c2 h
  have hcode_le : code < c.prefixes.length ∨
      (code = c.prefixes.length ∧ c.prevCode ≠ none) := by
    rcases resolveCode_ok_elim c code _ hres with ⟨h1, _⟩ | ⟨h2, p, b, r, hp, _, _⟩
    · exact Or.inl h1
    · exact Or.inr ⟨h2, by simp [hp]⟩
  exact nextCore_inv c code b0 hInv heof hcode_le hcode

theorem zstep_inv (st st' : ZState) (h : ZStep st st') (hInv : CoreInv st.core) :
    CoreInv st'.core ∧ st'.core.eof = false ∧
    st'.core.max_bits = st.core.max_bits ∧
    st'.core.block_mode = st.core.block_mode := by
  cases h with
  | clear st1 code heof hrc hbm hc =>
    obtain ⟨hcore, hcode, hmeas⟩ := read_code_some st st1 code hrc
    have hInv1 : CoreInv st1.core := by rw [hcore]; exact hInv
    have heof1 : st1.core.eof = false := by rw [hcore]; exact heof
    obtain ⟨hi, he, hm, hb⟩ := applyClear_inv st1.core hInv1 heof1 hbm
    exact ⟨hi, he, by rw [show ({ st1 with core := applyClear st1.core } : ZState).core
      = applyClear st1.core from rfl, hm, hcore],
      by rw [show ({ st1 with core := applyClear st1.core } : ZState).core
      = applyClear st1.core from rfl, hb, hcore]⟩
  | data st1 code out c2 heof hrc hnc hstep =>
    obtain ⟨hcore, hcode, hmeas⟩ := read_code_some st st1 code hrc
    have hInv1 : CoreInv st1.core := by rw [hcore]; exact hInv
    have heof1 : st1.core.eof = false := by rw [hcore]; exact heof
    have hcode1 : code < 2 ^ st1.core.current_bits := by rw [hcore]; exact hcode
    obtain ⟨hi, he, hm, hb, _⟩ := stepCode_ok_inv st1.core code out c2
      hInv1 heof1 hcode1 hstep
    exact ⟨hi, he, by rw [show ({ st1 with core := c2 } : ZState).core = c2 from rfl,
      hm, hcore], by rw [show ({ st1 with core := c2 } : ZState).core = c2 from rfl,
      hb, hcore]⟩

theorem reach_inv (st0 st : ZState) (h : Reach st0 st) (hInv : CoreInv st0.core) :
    CoreInv st.core ∧ st.core.max_bits = st0.core.max_bits ∧
    st.core.block_mode = st0.core.block_mode := by
  induction h with
  | refl => exact ⟨hInv, rfl, rfl⟩
  | tail hab hbc ih =>
    obtain ⟨hi, hm, hb⟩ := ih
    obtain ⟨hi', _, hm', hb'⟩ := zstep_inv _ _ hbc hi
    exact ⟨hi', by rw [hm', hm], by rw [hb', hb]⟩

theorem stepCode_no_panic (c : ZCore) (code : Nat) (hInv : CoreInv c)
    (heof : c.eof = false) (hcode : code < 2 ^ c.current_bits) :
    ∀ e, stepCode c code = .error e → e = .malformed := by
  rcases hInv with h | hInv
  · rw [heof] at h; cases h
  obtain ⟨h9, hlen, hlinks, hb9, hbmax, hmc, hlb, hlb', hcap, hseedlen,
    hprev, hseedp, hseedc⟩ := hInv
  intro e he
  by_cases h1 : code < c.prefixes.length
  · obtain ⟨l, hlne, hexp⟩ := expand_code_total c.prefixes c.chars hlen hlinks code h1
    have hres : resolveCode c code = .ok l := by simp [resolveCode, h1, hexp]
    rw [stepCode_of_resolve_ok c code l hres] at he
    obtain ⟨b0, rest, rfl⟩ : ∃ b0 rest, l = b0 :: rest := by
      cases l with
      | nil => simp at hlne
      | cons b0 rest => exact ⟨b0, rest, rfl⟩
    rw [pushEntry_cons] at he
    cases he
  · by_cases h2 : code = c.prefixes.length ∧ c.prevCode ≠ none
    · obtain ⟨p, hp⟩ : ∃ p, c.prevCode = some p := by
        cases hpv : c.prevCode with
        | none => exact absurd hpv h2.2
        | some p => exact ⟨p, rfl⟩
      have hplt : p < c.prefixes.length := hprev p hp
      obtain ⟨l, hlne, hexp⟩ :=
        expand_code_total c.prefixes c.chars hlen hlinks p hplt
      obtain ⟨b0, rest, rfl⟩ : ∃ b0 rest, l = b0 :: rest := by
        cases l with
        | nil => simp at hlne
        | cons b0 rest => exact ⟨b0, rest, rfl⟩
      have hres : resolveCode c code = .ok ((b0 :: rest) ++ [b0]) := by
        simp [resolveCode, kwkwkOut, h1, h2.1, hp, hexp]
      rw [stepCode_of_resolve_ok c code _ hres] at he
      have hshape : (b0 :: rest) ++ [b0] = b0 :: (rest ++ [b0]) := rfl
      rw [hshape, pushEntry_cons] at he
      cases he
    · rw [stepCode_malformed_of c code h1 h2] at he
      cases he
      rfl

theorem runZ_eof (fuel : Nat) (st : ZState) (heof : st.core.eof = true) :
    runZ (fuel + 1) st = .ok [] := by
  rw [runZ, if_pos heof]

theorem runZ_none (fuel : Nat) (st : ZState) (heof : ¬ st.core.eof = true)
    (hrc : read_code st = none) : runZ (fuel + 1) st = .ok [] := by
  rw [runZ, if_neg heof, hrc]

theorem runZ_some (fuel : Nat) (st st1 : ZState) (code : Nat)
    (heof : ¬ st.core.eof = true) (hrc : read_code st = some (code, st1)) :
    runZ (fuel + 1) st =
      if st1.core.block_mode = true ∧ code = 256 then
        runZ fuel { st1 with core := applyClear st1.core }
      else
        match stepCode st1.core code with
        | .error e => .error e
        | .ok (out, c2) =>
          match runZ fuel { st1 with core := c2 } with
          | .ok rest => .ok (out ++ rest)
          | .error e => .error e := by
  rw [runZ, if_neg heof, hrc]

theorem runZ_result (fuel : Nat) : ∀ (st : ZState), CoreInv st.core →
    8 * st.input.length + st.bits_in_buffer < 9 * fuel →
    ∀ e, runZ fuel st = .error e → e = .malformed := by
  induction fuel with
  | zero => intro st _ hm e h; omega
  | succ fuel ih =>
    intro st hInv hm e h
    by_cases heof : st.core.eof = true
    · rw [runZ_eof fuel st heof] at h; cases h
    · have heof' : st.core.eof = false := by
        cases hx : st.core.eof
        · rfl
        · exact absurd hx heof
      cases hrc : read_code st with
      | none => rw [runZ_none fuel st heof hrc] at h; cases h
      | some pr =>
        obtain ⟨code, st1⟩ := pr
        rw [runZ_some fuel st st1 code heof hrc] at h
        obtain ⟨hcore, hcode, hmeas⟩ := read_code_some st st1 code hrc
        have hInv1 : CoreInv st1.core := by rw [hcore]; exact hInv
        have heof1 : st1.core.eof = false := by rw [hcore]; exact heof'
        have hcode1 : code < 2 ^ st1.core.current_bits := by rw [hcore]; exact hcode
        have hb9 : 9 ≤ st.core.current_bits := CoreInv_bits9 st.core hInv heof'
        have hm1 : 8 * st1.input.length + st1.bits_in_buffer < 9 * fuel := by
          omega
        by_cases hcl : st1.core.block_mode = true ∧ code = 256
        · rw [if_pos hcl] at h
          have hInvc : CoreInv ({ st1 with core := applyClear st1.core } : ZState).core :=
            (applyClear_inv st1.core hInv1 heof1 hcl.1).1
          exact ih _ hInvc hm1 e h
        · rw [if_neg hcl] at h
          cases hsc : stepCode st1.core code with
          | error e' =>
            rw [hsc] at h
            have h' : (Except.error e' : Except ZErr (List Nat)) = .error e := h
            have he' : e' = e := by
              simpa using h'
            rw [← he']
            exact stepCode_no_panic st1.core code hInv1 heof1 hcode1 e' hsc
          | ok pr2 =>
            obtain ⟨out, c2⟩ := pr2
            rw [hsc] at h
            have h2 : (match runZ fuel { st1 with core := c2 } with
                | .ok rest => (.ok (out ++ rest) : Except ZErr (List Nat))
                | .error e => .error e) = .error e := h
            cases hrec : runZ fuel { st1 with core := c2 } with
            | ok rest =>
              rw [hrec] at h2
              have h' : (Except.ok (out ++ rest) : Except ZErr (List Nat)) = .error e := h2
              cases h'
            | error e2 =>
              rw [hrec] at h2
              have h' : (Except.error e2 : Except ZErr (List Nat)) = .error e := h2
              have he2 : e2 = e := by simpa using h'
              have hInv2 : CoreInv ({ st1 with core := c2 } : ZState).core :=
                (stepCode_ok_inv st1.core code out c2 hInv1 heof1 hcode1 hsc).1
              rw [← he2]
              exact ih _ hInv2 hm1 e2 hrec

theorem new_measure (inp : List Nat) :
    8 * (ZDecoder.new inp).input.length + (ZDecoder.new inp).bits_in_buffer ≤
      8 * inp.length := by
  match inp with
  | [] => exact le_refl _
  | [_] => simp [ZDecoder.new, ZDecoder.empty]
  | [_, _] => simp [ZDecoder.new, ZDecoder.empty]
  | h0 :: h1 :: h2 :: rest =>
    by_cases hm : h0 = 0x1f ∧ h1 = 0x9d
    · simp only [ZDecoder.new, if_pos hm]
      simp
      omega
    · simp only [ZDecoder.new, if_neg hm]
      simp [ZDecoder.empty]

theorem nextCore_eof (c : ZCore) (code b0 : Nat) :
    (nextCore c code b0).eof = c.eof := by
  by_cases h : c.prevCode ≠ none ∧ c.prefixes.length < 2 ^ c.max_bits
  · by_cases hb : c.prefixes.length + 1 > c.max_code ∧
        c.current_bits < c.max_bits
    · rw [nextCore_push_bump c code b0 h hb]
    · rw [nextCore_push_no_bump c code b0 h hb]
  · rw [nextCore_no_push c code b0 h]

theorem reach_eof_false (st0 st : ZState) (h : Reach st0 st)
    (heof : st0.core.eof = false) : st.core.eof = false := by
  induction h with
  | refl => exact heof
  | tail hab hbc ih =>
    cases hbc with
    | clear st1 code he hrc hbm hc =>
      obtain ⟨hcore, _, _⟩ := read_code_some _ st1 code hrc
      show (applyClear st1.core).eof = false
      rw [show (applyClear st1.core).eof = st1.core.eof from rfl, hcore]
      exact ih
    | data st1 code out c2 he hrc hnc hstep =>
      obtain ⟨hcore, _, _⟩ := read_code_some _ st1 code hrc
      obtain ⟨hres, b0, rest, rfl, rfl⟩ :=
        stepCode_ok_elim st1.core code out c2 hstep
      show (nextCore st1.core code b0).eof = false
      rw [nextCore_eof, hcore]
      exact ih

/-! ### Claims C4, C5, C10 -/

theorem nextCore_bits_eq (c : ZCore) (code b0 : Nat) :
    ((nextCore c code b0).current_bits = c.current_bits + 1 ↔
      (c.prevCode ≠ none ∧ c.prefixes.length < 2 ^ c.max_bits ∧
       c.prefixes.length + 1 > c.max_code ∧ c.current_bits < c.max_bits)) ∧
    ((nextCore c code b0).current_bits = c.current_bits ∨
     (nextCore c code b0).current_bits = c.current_bits + 1) := by
  by_cases hpush : c.prevCode ≠ none ∧ c.prefixes.length < 2 ^ c.max_bits
  · by_cases hbump : c.prefixes.length + 1 > c.max_code ∧
        c.current_bits < c.max_bits
    · rw [nextCore_push_bump c code b0 hpush hbump]
      constructor
      · constructor
        · intro _; exact ⟨hpush.1, hpush.2, hbump.1, hbump.2⟩
        · intro _; rfl
      · exact Or.inr rfl
    · rw [nextCore_push_no_bump c code b0 hpush hbump]
      constructor
      · constructor
        · intro hx
          exact absurd (show c.current_bits = c.current_bits + 1 from hx)
            (by omega)
        · intro hx; exact absurd ⟨hx.2.2.1, hx.2.2.2⟩ hbump
      · exact Or.inl rfl
  · rw [nextCore_no_push c code b0 hpush]
    constructor
    · constructor
      · intro hx
        exact absurd (show c.current_bits = c.current_bits + 1 from hx) (by omega)
      · intro hx; exact absurd ⟨hx.1, hx.2.1⟩ hpush
    · exact Or.inl rfl

/-- C4: in every reachable decoder state (for a header declaring at
least 9 code bits) the width sits between 9 and `max_bits`; a non-CLEAR
step never decreases it and increments it by exactly one precisely when
a new entry was pushed whose index exceeds the current width's code
space while the width is still below `max_bits`; a CLEAR resets it to 9
unconditionally. -/
theorem c4_width_growth (inp : List Nat) (st : ZState)
    (h9 : (ZDecoder.new inp).core.eof = false →
      9 ≤ (ZDecoder.new inp).core.max_bits)
    (hreach : Reach (ZDecoder.new inp) st) (heof : st.core.eof = false) :
    (9 ≤ st.core.current_bits ∧ st.core.current_bits ≤ st.core.max_bits) ∧
    (∀ code out c2, code < 2 ^ st.core.current_bits →
      stepCode st.core code = .ok (out, c2) →
      st.core.current_bits ≤ c2.current_bits ∧
      c2.current_bits ≤ st.core.max_bits ∧
      (c2.current_bits = st.core.current_bits + 1 ↔
        (st.core.prevCode ≠ none ∧
         st.core.prefixes.length < 2 ^ st.core.max_bits ∧
         st.core.prefixes.length + 1 > st.core.max_code ∧
         st.core.current_bits < st.core.max_bits))) ∧
    (applyClear st.core).current_bits = 9 := by
  obtain ⟨hInv, hmb, hbm⟩ := reach_inv _ _ hreach (CoreInv_new inp h9)
  have hb9 : 9 ≤ st.core.current_bits := CoreInv_bits9 st.core hInv heof
  have hbmax : st.core.current_bits ≤ st.core.max_bits := by
    rcases hInv with h | h
    · rw [heof] at h; cases h
    · exact h.2.2.2.2.1
  refine ⟨⟨hb9, hbmax⟩, ?_, rfl⟩
  intro code out c2 hcode hstep
  obtain ⟨hInv2, _, hm2, _, hble⟩ :=
    stepCode_ok_inv st.core code out c2 hInv heof hcode hstep
  have hbmax2 : c2.current_bits ≤ st.core.max_bits := by
    rcases hInv2 with h | h
    · obtain ⟨_, he2, _⟩ := stepCode_ok_inv st.core code out c2 hInv heof hcode hstep
      rw [he2] at h; cases h
    · rw [← hm2]; exact h.2.2.2.2.1
  obtain ⟨hres, b0, rest, rfl, rfl⟩ := stepCode_ok_elim st.core code _ _ hstep
  exact ⟨hble, hbmax2, (nextCore_bits_eq st.core code b0).1⟩

theorem c4_witness :
    ((9 ≤ (ZDecoder.new [31, 157, 16]).core.current_bits ∧
      (ZDecoder.new [31, 157, 16]).core.current_bits ≤
        (ZDecoder.new [31, 157, 16]).core.max_bits)) ∧
    (applyClear (ZDecoder.new [31, 157, 16]).core).current_bits = 9 := by
  have h := c4_width_growth [31, 157, 16] (ZDecoder.new [31, 157, 16])
    (fun _ => by decide) Relation.ReflTransGen.refl rfl
  exact ⟨h.1, h.2.2⟩

/-- C5: in every reachable decoder state (magic accepted, at least 9
declared code bits) the table length never exceeds
`2 ^ max_code_bits` where `max_code_bits` is the low 5 bits of the
header control byte; every current table index expands successfully;
and once the table is full a step adds no entry, leaving the table (and
so every existing code's expansion) unchanged. -/
theorem c5_table_bound (inp : List Nat) (st : ZState)
    (heof0 : (ZDecoder.new inp).core.eof = false)
    (h9 : 9 ≤ (ZDecoder.new inp).core.max_bits)
    (hreach : Reach (ZDecoder.new inp) st) :
    st.core.prefixes.length ≤ 2 ^ st.core.max_bits ∧
    (∀ h0 h1 h2 r, inp = h0 :: h1 :: h2 :: r →
      st.core.max_bits = h2 % 32) ∧
    (∀ (i : Nat), i < st.core.prefixes.length →
      ∃ l, l ≠ [] ∧ expand_code st.core.prefixes st.core.chars i = some l) ∧
    (∀ code out c2, stepCode st.core code = .ok (out, c2) →
      c2.prefixes.length ≤ 2 ^ st.core.max_bits ∧
      (st.core.prefixes.length = 2 ^ st.core.max_bits →
        c2.prefixes = st.core.prefixes ∧ c2.chars = st.core.chars)) := by
  obtain ⟨hInv, hmb, hbm⟩ := reach_inv _ _ hreach (CoreInv_new inp (fun _ => h9))
  have heof : st.core.eof = false := reach_eof_false _ _ hreach heof0
  rcases hInv with h | hInv
  · rw [heof] at h; cases h
  obtain ⟨hi9, hlen, hlinks, hb9, hbmax, hmc, hlb, hlb', hcap, hseedlen,
    hprev, hseedp, hseedc⟩ := hInv
  refine ⟨hcap, ?_, ?_, ?_⟩
  · intro b0 b1 b2 r hinp
    rw [hmb, hinp]
    rw [hinp] at heof0
    by_cases hm : b0 = 0x1f ∧ b1 = 0x9d
    · simp [ZDecoder.new, hm]
    · exfalso
      rw [show ZDecoder.new (b0 :: b1 :: b2 :: r) = ZDecoder.empty by
        simp [ZDecoder.new, hm]] at heof0
      cases heof0
  · intro i hi
    exact expand_code_total st.core.prefixes st.core.chars hlen hlinks i hi
  · intro code out c2 hstep
    obtain ⟨hres, b0, rest, rfl, rfl⟩ := stepCode_ok_elim st.core code _ _ hstep
    by_cases hpush : st.core.prevCode ≠ none ∧
        st.core.prefixes.length < 2 ^ st.core.max_bits
    · constructor
      · by_cases hbump : st.core.prefixes.length + 1 > st.core.max_code ∧
            st.core.current_bits < st.core.max_bits
        · rw [nextCore_push_bump st.core code b0 hpush hbump]
          show (st.core.prefixes ++ [st.core.prevCode]).length ≤
            2 ^ st.core.max_bits
          simp only [List.length_append, List.length_cons, List.length_nil]
          omega
        · rw [nextCore_push_no_bump st.core code b0 hpush hbump]
          show (st.core.prefixes ++ [st.core.prevCode]).length ≤
            2 ^ st.core.max_bits
          simp only [List.length_append, List.length_cons, List.length_nil]
          omega
      · intro hfull
        exact absurd hpush.2 (by omega)
    · rw [nextCore_no_push st.core code b0 hpush]
      exact ⟨hcap, fun _ => ⟨rfl, rfl⟩⟩

theorem c5_witness :
    (ZDecoder.new [31, 157, 16]).core.prefixes.length ≤
      2 ^ (ZDecoder.new [31, 157, 16]).core.max_bits ∧
    (ZDecoder.new [31, 157, 16]).core.max_bits = 16 % 32 := by
  have h := c5_table_bound [31, 157, 16] (ZDecoder.new [31, 157, 16])
    rfl (by decide) Relation.ReflTransGen.refl
  exact ⟨h.1, h.2.1 31 157 16 [] rfl⟩

/-- C10, counterexample: the header check accepts `max_code_bits = 8`
(the low 5 bits are not validated), and on this stream the KwKwK path
leaves `prefix` pointing at a table slot that is never allocated (the
table is already "full" at its seeded size), so the next expansion
indexes out of bounds — a panic in the Rust source, the `panicked`
marker here. -/
theorem c10_counterexample :
    decompress [31, 157, 8, 65, 0, 2, 4] = .error .panicked := by rfl

/-- C10, amended: for every input stream whose header (when accepted)
declares at least 9 code bits, the decoder is total: it never panics
and never diverges — any error is the `MalformedStream` one.  (For
declared widths of 8 or fewer bits the decoder can panic, see the
counterexample.) -/
theorem c10_read_total (inp : List Nat)
    (h9 : (ZDecoder.new inp).core.eof = false →
      9 ≤ (ZDecoder.new inp).core.max_bits) :
    ∀ e, decompress inp = .error e → e = .malformed := by
  intro e h
  have hmeas := new_measure inp
  exact runZ_result (inp.length + 1) (ZDecoder.new inp) (CoreInv_new inp h9)
    (by omega) e h

theorem c10_witness :
    ZErr.malformed = ZErr.malformed ∧
    decompress [31, 157, 16, 44, 1] = .error .malformed :=
  ⟨c10_read_total [31, 157, 16, 44, 1] (fun _ => by decide) .malformed (by rfl),
   by rfl⟩

theorem c2_witness :
    ∃ st1, read_code (ZDecoder.new [31, 157, 144, 0, 1]) = some (256, st1) ∧
      runZ 2 (ZDecoder.new [31, 157, 144, 0, 1]) =
        runZ 1 { st1 with core := applyClear st1.core } ∧
      (applyClear st1.core).prefixes = seedPrefixes true ∧
      (applyClear st1.core).current_bits = 9 ∧
      (applyClear st1.core).prevCode = none ∧
      ¬ (300 : Nat) < (applyClear st1.core).prefixes.length := by
  refine ⟨_, rfl, ?_⟩
  have h := c2_clear_semantics (ZDecoder.new [31, 157, 144, 0, 1]) _ 1
    rfl rfl (by decide) (by decide) (by decide) (by decide)
  exact ⟨h.1, h.2.1, h.2.2.2.1, h.2.2.2.2.1, h.2.2.2.2.2 300 (by omega)⟩

/-! ### Filename handling (claim C7) -/

theorem trimEndGo_of_not_suffix (pat s : List Char) (f : Nat)
    (h : ¬ pat.isSuffixOf s = true) : trimEndGo pat f s = s := by
  cases f with
  | zero => rfl
  | succ f => simp [trimEndGo, h]

theorem trimEndGo_step (pat s : List Char) (f : Nat) (hne : pat ≠ [])
    (h : pat.isSuffixOf s = true) :
    trimEndGo pat (f + 1) s = trimEndGo pat f (s.take (s.length - pat.length)) := by
  simp [trimEndGo, hne, h]

theorem trim_end_matches_of_not_suffix (s pat : List Char)
    (h : ¬ pat.isSuffixOf s = true) : trim_end_matches s pat = s :=
  trimEndGo_of_not_suffix pat s s.length h

/-- For a path carrying one recognized suffix whose removal leaves no
further recognized suffix, the code's repeated trimming agrees with the
spec's single strip. -/
theorem normalizeName_eq_stripOne (path : List Char)
    (hgz : ¬ gzSuffix.isSuffixOf (stripOneSuffix path) = true)
    (hz : ¬ zSuffix.isSuffixOf (stripOneSuffix path) = true) :
    normalizeName path = stripOneSuffix path := by
  unfold normalizeName
  by_cases h1 : gzSuffix.isSuffixOf path = true
  · have hlen : 3 ≤ path.length := by
      have := List.IsSuffix.length_le (List.isSuffixOf_iff_suffix.mp h1)
      simpa [gzSuffix] using this
    have hstrip : stripOneSuffix path = path.take (path.length - 3) := by
      simp [stripOneSuffix, h1]
    obtain ⟨f, hf⟩ : ∃ f, path.length = f + 1 := by
      refine ⟨path.length - 1, ?_⟩; omega
    have e1 : trim_end_matches path gzSuffix = path.take (path.length - 3) := by
      unfold trim_end_matches
      rw [hf, trimEndGo_step gzSuffix path f (by simp [gzSuffix]) h1]
      have : gzSuffix.length = 3 := rfl
      rw [this, ← hf]
      exact trimEndGo_of_not_suffix _ _ _ (hstrip ▸ hgz)
    rw [e1, ← hstrip, hstrip]
    exact trim_end_matches_of_not_suffix _ _ (hstrip ▸ hz)
  · have e1 : trim_end_matches path gzSuffix = path := by
      exact trim_end_matches_of_not_suffix _ _ h1
    rw [e1]
    by_cases h2 : zSuffix.isSuffixOf path = true
    · have hlen : 2 ≤ path.length := by
        have := List.IsSuffix.length_le (List.isSuffixOf_iff_suffix.mp h2)
        simpa [zSuffix] using this
      have hstrip : stripOneSuffix path = path.take (path.length - 2) := by
        simp [stripOneSuffix, h1, h2]
      obtain ⟨f, hf⟩ : ∃ f, path.length = f + 1 := by
        refine ⟨path.length - 1, ?_⟩; omega
      unfold trim_end_matches
      rw [hf, trimEndGo_step zSuffix path f (by simp [zSuffix]) h2]
      have : zSuffix.length = 2 := rfl
      rw [this, ← hstrip]
      exact trimEndGo_of_not_suffix _ _ _ hz
    · have : stripOneSuffix path = path := by simp [stripOneSuffix, h1, h2]
      rw [this]
      exact trim_end_matches_of_not_suffix _ _ h2

/-- C7, counterexample: on `"a.gz.gz"` the format selector returns
`Gzip`, but the normalization used by `process_tar` strips *all*
trailing `.gz` occurrences (`trim_end_matches`), yielding `"a"`, not
the `"a.gz"` that stripping exactly one suffix would give. -/
theorem c7_counterexample :
    get_format exPath = .Gzip ∧
    normalizeName exPath = ['a'] ∧
    stripOneSuffix exPath = ['a', '.', 'g', 'z'] ∧
    normalizeName exPath ≠ stripOneSuffix exPath := by
  refine ⟨by decide, by decide, by decide, by decide⟩

/-- C7, amended: the format selector classifies exactly by suffix
(`.gz` first, then `.Z`, else pass-through), and the normalized
filename equals the input with *all* trailing `.gz` occurrences
stripped and then all trailing `.Z` occurrences stripped; this
coincides with stripping exactly one suffix whenever the stripped name
retains no recognized suffix. -/
theorem c7_format_selector_amended (path : List Char) :
    (get_format path = .Gzip ↔ gzSuffix.isSuffixOf path = true) ∧
    (get_format path = .UnixCompress ↔
      (¬ gzSuffix.isSuffixOf path = true ∧ zSuffix.isSuffixOf path = true)) ∧
    (get_format path = .None ↔
      (¬ gzSuffix.isSuffixOf path = true ∧ ¬ zSuffix.isSuffixOf path = true)) ∧
    normalizeName path =
      trim_end_matches (trim_end_matches path gzSuffix) zSuffix ∧
    ((¬ gzSuffix.isSuffixOf (stripOneSuffix path) = true ∧
      ¬ zSuffix.isSuffixOf (stripOneSuffix path) = true) →
      normalizeName path = stripOneSuffix path) := by
  refine ⟨?_, ?_, ?_, rfl, fun h => normalizeName_eq_stripOne path h.1 h.2⟩
  · unfold get_format
    by_cases h1 : gzSuffix.isSuffixOf path = true <;>
      by_cases h2 : zSuffix.isSuffixOf path = true <;> simp [h1, h2]
  · unfold get_format
    by_cases h1 : gzSuffix.isSuffixOf path = true <;>
      by_cases h2 : zSuffix.isSuffixOf path = true <;> simp [h1, h2]
  · unfold get_format
    by_cases h1 : gzSuffix.isSuffixOf path = true <;>
      by_cases h2 : zSuffix.isSuffixOf path = true <;> simp [h1, h2]

theorem c7_witness :
    ((¬ gzSuffix.isSuffixOf (stripOneSuffix ['x', '.', 'g', 'z']) = true ∧
      ¬ zSuffix.isSuffixOf (stripOneSuffix ['x', '.', 'g', 'z']) = true) →
      normalizeName ['x', '.', 'g', 'z'] = stripOneSuffix ['x', '.', 'g', 'z'])
    ∧ normalizeName ['x', '.', 'g', 'z'] = ['x'] :=
  ⟨(c7_format_selector_amended ['x', '.', 'g', 'z']).2.2.2.2, by decide⟩

/-! ### Upload size verification (claim C8) -/

theorem uploadDrain_eq (chunks : List (List Nat)) :
    ∀ t, uploadDrain chunks t = t + chunksTotal chunks := by
  induction chunks with
  | nil => intro t; simp [uploadDrain, chunksTotal]
  | cons c rest ih =>
    intro t
    simp only [uploadDrain, ih, chunksTotal, List.map_cons, List.sum_cons]
    omega

/-- C8: the upload task accumulates the total byte count of all chunks
written, and after the channel closes reports `SizeMismatch` exactly
when that total differs from the manifest's expected size, succeeding
exactly when they are equal. -/
theorem c8_upload_size_verification (chunks : List (List Nat)) (expected : Nat) :
    uploadTask chunks expected =
      (if chunksTotal chunks = expected then .ok ()
       else .error (.sizeMismatch expected (chunksTotal chunks))) ∧
    (uploadTask chunks expected = .ok () ↔ chunksTotal chunks = expected) := by
  have htot : uploadDrain chunks 0 = chunksTotal chunks := by
    simpa using uploadDrain_eq chunks 0
  constructor
  · unfold uploadTask
    rw [htot]
    by_cases h : chunksTotal chunks = expected <;> simp [h]
  · unfold uploadTask
    rw [htot]
    by_cases h : chunksTotal chunks = expected <;> simp [h]

theorem c8_witness :
    uploadTask [[0, 1], [2]] 4 =
      (if chunksTotal [[0, 1], [2]] = 4 then .ok ()
       else .error (.sizeMismatch 4 (chunksTotal [[0, 1], [2]]))) ∧
    (uploadTask [[0, 1], [2]] 4 = .ok () ↔ chunksTotal [[0, 1], [2]] = 4) :=
  c8_upload_size_verification [[0, 1], [2]] 4

/-! ### Manifest cross-check (claim C9) -/

theorem crossCheck_ok_iff (keys processed : List (List Char)) :
    crossCheck keys processed = .ok () ↔ ∀ k ∈ keys, k ∈ processed := by
  induction keys with
  | nil => simp [crossCheck]
  | cons k rest ih =>
    by_cases h : k ∈ processed <;> simp [crossCheck, h, ih]

theorem crossCheck_error (keys processed : List (List Char)) (k0 : List Char)
    (h : crossCheck keys processed = .error (.missingInTar k0)) :
    k0 ∈ keys ∧ k0 ∉ processed := by
  induction keys with
  | nil => simp [crossCheck] at h
  | cons k rest ih =>
    by_cases hm : k ∈ processed
    · simp only [crossCheck, if_pos hm] at h
      have := ih h
      exact ⟨List.mem_cons_of_mem _ this.1, this.2⟩
    · simp only [crossCheck, if_neg hm, Except.error.injEq, RunErr.missingInTar.injEq] at h
      exact ⟨h ▸ List.mem_cons_self _ _, h ▸ hm⟩

theorem crossCheck_fails (keys processed : List (List Char)) (k : List Char)
    (hk : k ∈ keys) (hnp : k ∉ processed) :
    ∃ k0, crossCheck keys processed = .error (.missingInTar k0) := by
  induction keys with
  | nil => cases hk
  | cons a rest ih =>
    by_cases hm : a ∈ processed
    · rcases List.mem_cons.mp hk with rfl | hk'
      · exact absurd hm hnp
      · simpa [crossCheck, hm] using ih hk'
    · exact ⟨a, by simp [crossCheck, hm]⟩

/-- C9: the manifest cross-check runs only after every upload task has
been joined successfully (a failed join aborts first, with that join's
error); once all joins succeed, the run succeeds iff every manifest key
was observed in the archive, and any missing key makes the run fail
with a `Missing file in TAR` error naming a missing key. -/
theorem c9_missing_in_archive (joins : List (Except UploadErr Unit))
    (keys processed : List (List Char)) :
    (∀ e, joinAll joins = .error e →
      finalPhase joins keys processed = .error e ∧ ∀ k, e ≠ .missingInTar k) ∧
    (joinAll joins = .ok () →
      ((finalPhase joins keys processed = .ok () ↔ ∀ k ∈ keys, k ∈ processed) ∧
       (∀ k0, finalPhase joins keys processed = .error (.missingInTar k0) →
          k0 ∈ keys ∧ k0 ∉ processed) ∧
       (∀ k, k ∈ keys → k ∉ processed →
          ∃ k0, finalPhase joins keys processed = .error (.missingInTar k0)))) := by
  constructor
  · intro e he
    constructor
    · simp [finalPhase, he]
    · intro k
      induction joins with
      | nil => simp [joinAll] at he
      | cons r rest ih =>
        cases r with
        | error e' =>
          simp only [joinAll, Except.error.injEq] at he
          simp [← he]
        | ok u => exact ih (by simpa [joinAll] using he)
  · intro hok
    refine ⟨?_, ?_, ?_⟩
    · simp [finalPhase, hok, crossCheck_ok_iff]
    · intro k0 h
      simp only [finalPhase, hok] at h
      exact crossCheck_error keys processed k0 h
    · intro k hk hnp
      obtain ⟨k0, hk0⟩ := crossCheck_fails keys processed k hk hnp
      exact ⟨k0, by simp [finalPhase, hok, hk0]⟩

theorem c9_witness :
    (joinAll [.ok ()] = .ok ()) ∧
    (finalPhase [.ok ()] [['b']] [] = .ok () ↔ ∀ k ∈ [['b']], k ∈ ([] : List (List Char))) ∧
    ∃ k0, finalPhase [.ok ()] [['b']] [] = .error (.missingInTar k0) :=
  ⟨rfl,
   ((c9_missing_in_archive [.ok ()] [['b']] []).2 rfl).1,
   ((c9_missing_in_archive [.ok ()] [['b']] []).2 rfl).2.2 ['b']
     (by decide) (by decide)⟩

/-! ### Round-trip (claim C1): dictionary and seed facts -/

theorem seedDict_length (bm : Bool) : (seedDict bm).length = seedLen bm := by
  cases bm <;> simp [seedDict, seedLen]

theorem seedDict_getElem?_lt (bm : Bool) (i : Nat) (hi : i < 256) :
    (seedDict bm)[i]? = some [i] := by
  unfold seedDict
  rw [List.getElem?_append]
  simp only [List.length_map, List.length_range, hi, if_pos]
  rw [List.getElem?_map, List.getElem?_range hi]
  rfl

theorem seedDict_getElem?_256 : (seedDict true)[256]? = some [] := by
  unfold seedDict
  rw [List.getElem?_append]
  simp

theorem singleton_mem_seedDict (bm : Bool) (ch : Nat) (hch : ch < 256) :
    [ch] ∈ seedDict bm := by
  have := seedDict_getElem?_lt bm ch hch
  exact List.getElem?_mem this

theorem seedChars_getElem?_lt (bm : Bool) (i : Nat) (hi : i < 256) :
    (seedChars bm)[i]? = some i := by
  unfold seedChars
  rw [List.getElem?_append]
  simp only [List.length_range, hi, if_pos]
  rw [List.getElem?_range hi]

theorem expand_code_seed (bm : Bool) (i : Nat) (hi : i < 256) :
    expand_code (seedPrefixes bm) (seedChars bm) i = some [i] := by
  unfold expand_code
  have hc : (seedChars bm)[i]? = some i := seedChars_getElem?_lt bm i hi
  have hp : (seedPrefixes bm)[i]? = some none := by
    rw [seedPrefixes_getElem?]
    have : i < seedLen bm := by
      have := seedLen_le bm
      omega
    rw [if_pos this]
  simp only [expandGo]
  rw [hc, hp]

/-- In any state whose leading 256 table entries are the seeded roots,
a byte code expands to itself. -/
theorem expand_code_byte (c : ZCore) (bm : Bool) (ch : Nat) (hch : ch < 256)
    (hsl : 256 ≤ seedLen bm)
    (hseedp : c.prefixes.take (seedLen bm) = seedPrefixes bm)
    (hseedc : c.chars.take (seedLen bm) = seedChars bm) :
    expand_code c.prefixes c.chars ch = some [ch] := by
  unfold expand_code
  have hc : c.chars[ch]? = some ch := by
    have h1 : (c.chars.take (seedLen bm))[ch]? = some ch := by
      rw [hseedc]; exact seedChars_getElem?_lt bm ch hch
    rw [List.getElem?_take] at h1
    by_cases h2 : ch < seedLen bm
    · rw [if_pos h2] at h1; exact h1
    · omega
  have hp : c.prefixes[ch]? = some none := by
    have h1 : (c.prefixes.take (seedLen bm))[ch]? = some none := by
      rw [hseedp, seedPrefixes_getElem?]
      have : ch < seedLen bm := by omega
      rw [if_pos this]
    rw [List.getElem?_take] at h1
    by_cases h2 : ch < seedLen bm
    · rw [if_pos h2] at h1; exact h1
    · omega
  simp only [expandGo]
  rw [hc, hp]

/-- Expansion of a freshly pushed entry: the previous code's expansion
extended by the entry's trailing byte. -/
theorem expand_code_push (pfx : List (Option Nat)) (chs : List Nat)
    (pc b0 : Nat) (wprev : List Nat)
    (hlen : chs.length = pfx.length)
    (hpc : pc < pfx.length)
    (hexp : expand_code pfx chs pc = some wprev) :
    expand_code (pfx ++ [some pc]) (chs ++ [b0]) pfx.length =
      some (wprev ++ [b0]) := by
  unfold expand_code
  have hc : (chs ++ [b0])[pfx.length]? = some b0 := by
    rw [← hlen]
    exact List.getElem?_concat_length chs b0
  have hp : (pfx ++ [some pc])[pfx.length]? = some (some pc) :=
    List.getElem?_concat_length pfx (some pc)
  simp only [expandGo]
  rw [hc, hp]
  have h1 : expandGo (pfx ++ [some pc]) (chs ++ [b0]) (pc + 1) pc [] =
      some wprev := expandGo_append pfx [some pc] chs [b0] (pc + 1) pc [] wprev hexp
  have h2 : expandGo (pfx ++ [some pc]) (chs ++ [b0]) pfx.length pc [] =
      some wprev := expandGo_mono _ _ (pc + 1) pfx.length pc [] wprev (by omega) h1
  show expandGo (pfx ++ [some pc]) (chs ++ [b0]) pfx.length pc [b0] =
    some (wprev ++ [b0])
  rw [expandGo_acc, h2]
  rfl

theorem headI_append (l1 l2 : List Nat) (h : l1 ≠ []) :
    (l1 ++ l2).headI = l1.headI := by
  cases l1 with
  | nil => exact absurd rfl h
  | cons a tl => rfl

/-! ### Round-trip: runCodes and WidthsOK unfolding -/

theorem runCodes_cons_clear (c : ZCore) (codes : List Nat)
    (hbm : c.block_mode = true) :
    runCodes c (256 :: codes) = runCodes (applyClear c) codes := by
  simp only [runCodes]
  rw [if_pos (by simp [hbm])]

theorem runCodes_cons_step (c : ZCore) (k : Nat) (codes : List Nat)
    (out : List Nat) (c2 : ZCore)
    (hnc : ¬ (c.block_mode = true ∧ k = 256))
    (hstep : stepCode c k = .ok (out, c2)) :
    runCodes c (k :: codes) =
      match runCodes c2 codes with
      | .ok tail => .ok (out ++ tail)
      | .error e => .error e := by
  simp only [runCodes]
  rw [if_neg hnc, hstep]

theorem widthsOK_cons (c : ZCore) (w k : Nat) (rest : List (Nat × Nat)) :
    WidthsOK c ((w, k) :: rest) ↔
      (w = c.current_bits ∧ k < 2 ^ w ∧
       (if c.block_mode = true ∧ k = 256 then WidthsOK (applyClear c) rest
        else ∀ out c2, stepCode c k = .ok (out, c2) → WidthsOK c2 rest)) := by
  rfl

theorem idxOf_lt_length (d : List (List Nat)) (w : List Nat) (h : w ∈ d) :
    idxOf d w < d.length := by
  induction d with
  | nil => cases h
  | cons d0 rest ih =>
    by_cases h0 : d0 = w
    · simp [idxOf, h0]
    · have hw : w ∈ rest := by
        rcases List.mem_cons.mp h with h' | h'
        · exact absurd h'.symm h0
        · exact h'
      simp only [idxOf, if_neg h0, List.length_cons]
      have := ih hw
      omega

theorem getElem?_idxOf (d : List (List Nat)) (w : List Nat) (h : w ∈ d) :
    d[idxOf d w]? = some w := by
  induction d with
  | nil => cases h
  | cons d0 rest ih =>
    by_cases h0 : d0 = w
    · simp [idxOf, h0]
    · have hw : w ∈ rest := by
        rcases List.mem_cons.mp h with h' | h'
        · exact absurd h'.symm h0
        · exact h'
      simp only [idxOf, if_neg h0, List.getElem?_cons_succ]
      exact ih hw

/-- The decoder's behaviour on one emitted code: the code for the
encoder's current match `w` resolves to exactly `w` (in-table, or via
the KwKwK special case when `w` is the pending entry), and the step
succeeds. -/
theorem emit_step (s : EncState) (w : List Nat) (c : ZCore)
    (hI : EncInv s w c) (hwne : w ≠ []) :
    stepCode c (idxOf s.dict w) =
      .ok (w, nextCore c (idxOf s.dict w) w.headI) ∧
    idxOf s.dict w < 2 ^ s.bits ∧
    ¬ (c.block_mode = true ∧ idxOf s.dict w = 256) ∧
    idxOf s.dict w ≤ s.declen := by
  have hmem : w ∈ s.dict := hI.hwdict hwne
  have hklt : idxOf s.dict w < s.dict.length := idxOf_lt_length s.dict w hmem
  have hkget : s.dict[idxOf s.dict w]? = some w := getElem?_idxOf s.dict w hmem
  have hnot256 : ¬ (c.block_mode = true ∧ idxOf s.dict w = 256) := by
    rintro ⟨hbm', h256⟩
    have hbmS : s.blockMode = true := by rw [← hI.hbm]; exact hbm'
    have hd := hI.hdummy hbmS
    rw [h256, hd] at hkget
    simp only [Option.some.injEq] at hkget
    exact hwne hkget.symm
  have hdl : s.dict.length ≤ s.declen + 1 := by
    rw [hI.hdictlen]
    by_cases h1 : s.first
    · rw [if_pos h1]; omega
    · rw [if_neg h1]
      by_cases h2 : s.declen < 2 ^ s.maxBits
      · rw [if_pos h2]
      · rw [if_neg h2]; omega
  have hkle : idxOf s.dict w ≤ s.declen := by omega
  by_cases hkd : idxOf s.dict w < s.declen
  · -- resolves as an existing table entry
    have hne256 : ¬ (s.blockMode = true ∧ idxOf s.dict w = 256) := by
      rintro ⟨hbmS, h256⟩
      exact hnot256 ⟨by rw [hI.hbm]; exact hbmS, h256⟩
    obtain ⟨li, hget, hline, hexpand⟩ := hI.hexp _ hkd hne256
    have hli : li = w := by
      rw [hget] at hkget
      simpa using hkget
    have hklen : idxOf s.dict w < c.prefixes.length := by
      rw [hI.hlen]; exact hkd
    have hres : resolveCode c (idxOf s.dict w) = .ok w := by
      rw [hli] at hexpand
      simp [resolveCode, hklen, hexpand]
    obtain ⟨b0, tl, hwcons⟩ : ∃ b0 tl, w = b0 :: tl := by
      cases w with
      | nil => exact absurd rfl hwne
      | cons b0 tl => exact ⟨b0, tl, rfl⟩
    refine ⟨?_, ?_, hnot256, hkle⟩
    · rw [stepCode_of_resolve_ok _ _ _ hres, hwcons, pushEntry_cons]
      rw [show (b0 :: tl).headI = b0 from rfl]
    · have := hI.hlenbits
      omega
  · -- resolves through the pending entry: the KwKwK special case
    have hkeq : idxOf s.dict w = s.declen := by omega
    have hgt : s.declen < s.dict.length := by omega
    have hff : s.first = false ∧ s.declen < 2 ^ s.maxBits := by
      by_cases h1 : s.first
      · exfalso
        rw [hI.hdictlen, if_pos h1] at hgt
        omega
      · have hf : s.first = false := by
          cases hx : s.first
          · rfl
          · exact absurd hx h1
        refine ⟨hf, ?_⟩
        by_cases h2 : s.declen < 2 ^ s.maxBits
        · exact h2
        · exfalso
          rw [hI.hdictlen, if_neg h1, if_neg h2] at hgt
          omega
    obtain ⟨pc, wprev, hpc, hpclt, hexpPrev, hwprevne, hpending⟩ :=
      hI.hprev hff.1
    have hpend := hpending hff.2
    have hweq : w = wprev ++ [w.headI] := by
      rw [hkeq] at hkget
      rw [hpend] at hkget
      simpa using hkget.symm
    obtain ⟨b, br, hwprev_cons⟩ : ∃ b br, wprev = b :: br := by
      cases wprev with
      | nil => exact absurd rfl hwprevne
      | cons b br => exact ⟨b, br, rfl⟩
    have hheadb : w.headI = b := by
      calc w.headI = (wprev ++ [w.headI]).headI := by rw [← hweq]
        _ = wprev.headI := headI_append wprev [w.headI] hwprevne
        _ = b := by rw [hwprev_cons]; rfl
    have hklen : idxOf s.dict w = c.prefixes.length := by
      rw [hI.hlen]; omega
    have hexpPrev' : expand_code c.prefixes c.chars pc = some (b :: br) := by
      rw [← hwprev_cons]; exact hexpPrev
    have hres : resolveCode c (idxOf s.dict w) = .ok ((b :: br) ++ [b]) := by
      simp [resolveCode, kwkwkOut, hklen, hpc, hexpPrev']
    have hwval : (b :: br) ++ [b] = w := by
      calc (b :: br) ++ [b] = wprev ++ [b] := by rw [hwprev_cons]
        _ = wprev ++ [w.headI] := by rw [hheadb]
        _ = w := hweq.symm
    refine ⟨?_, ?_, hnot256, hkle⟩
    · rw [stepCode_of_resolve_ok _ _ _ hres]
      have hshape : (b :: br) ++ [b] = b :: (br ++ [b]) := rfl
      have hw2 : w = b :: (br ++ [b]) := hwval.symm
      rw [hshape, pushEntry_cons, hheadb, hw2]
    · by_cases hbb : s.bits < s.maxBits
      · have := hI.hlenbits' hbb
        omega
      · have hbeq : s.bits = s.maxBits := by
          have := hI.hbB
          omega
        rw [hbeq]
        omega

/-- Invariant preservation across one emission: after the encoder emits
the code for `w`, adds `w ++ [ch]`, and the decoder consumes that code,
the coupling invariant holds again with the new match `[ch]`. -/
theorem emit_preserve (s : EncState) (w : List Nat) (c : ZCore) (ch : Nat)
    (hI : EncInv s w c) (hwne : w ≠ []) (hch : ch < 256) :
    EncInv (addEntry (afterEmit s) (w ++ [ch])) [ch]
      (nextCore c (idxOf s.dict w) w.headI) := by
  have hmem : w ∈ s.dict := hI.hwdict hwne
  have hklt : idxOf s.dict w < s.dict.length := idxOf_lt_length s.dict w hmem
  have hkget : s.dict[idxOf s.dict w]? = some w := getElem?_idxOf s.dict w hmem
  have hnot256 : ¬ (s.blockMode = true ∧ idxOf s.dict w = 256) := by
    rintro ⟨hbmS, h256⟩
    have hd := hI.hdummy hbmS
    rw [h256, hd] at hkget
    simp only [Option.some.injEq] at hkget
    exact hwne hkget.symm
  have hchdict : [ch] ∈ s.dict := by
    have hchlen : ch < s.declen := by
      have h1 := seedLen_le s.blockMode
      have h2 := hI.hseedlen
      omega
    obtain ⟨li, hg, hn, he⟩ := hI.hexp ch hchlen (by rintro ⟨_, h⟩; omega)
    have hbyte : expand_code c.prefixes c.chars ch = some [ch] :=
      expand_code_byte c s.blockMode ch hch (seedLen_le s.blockMode).1
        hI.hseedtake.1 hI.hseedtake.2
    rw [he] at hbyte
    simp only [Option.some.injEq] at hbyte
    rw [hbyte] at hg
    exact List.getElem?_mem hg
  by_cases hf : s.first = true
  · -- first emission since start/CLEAR: the decoder pushes nothing
    obtain ⟨hpnone, hdictseed, hdlen, hbits9⟩ := hI.hfirst hf
    have hkd : idxOf s.dict w < s.declen := by
      have : s.dict.length = s.declen := by rw [hI.hdictlen, if_pos hf]
      omega
    have hdl0 : s.dict.length = s.declen := by rw [hI.hdictlen, if_pos hf]
    have hcapseed : s.dict.length < 2 ^ s.maxBits := by
      rw [hdl0, hdlen]
      have h1 := seedLen_le s.blockMode
      have hp : (2 : Nat) ^ 9 ≤ 2 ^ s.maxBits :=
        Nat.pow_le_pow_right (by norm_num) hI.h9B
      norm_num at hp
      omega
    have hc2 : nextCore c (idxOf s.dict w) w.headI =
        { c with prevCode := some (idxOf s.dict w) } :=
      nextCore_no_push _ _ _ (by
        rintro ⟨hne, _⟩
        exact hne hpnone)
    have hs2 : addEntry (afterEmit s) (w ++ [ch]) =
        ⟨s.dict ++ [w ++ [ch]], s.bits, s.declen, false,
         s.maxBits, s.blockMode⟩ := by
      unfold afterEmit addEntry
      rw [if_pos hf]
      rw [if_pos (show ({ s with first := false } : EncState).dict.length <
        2 ^ ({ s with first := false } : EncState).maxBits from hcapseed)]
    rw [hc2, hs2]
    obtain ⟨li, hg, hn, he⟩ := hI.hexp _ hkd hnot256
    have hli : li = w := by
      rw [hg] at hkget
      simpa using hkget
    have he' : expand_code c.prefixes c.chars (idxOf s.dict w) = some w := by
      rw [hli] at he
      exact he
    have hdc : s.declen < 2 ^ s.maxBits := by omega
    exact {
      heof := hI.heof
      hbm := hI.hbm
      hB := hI.hB
      h9B := hI.h9B
      hbits := hI.hbits
      hmc := hI.hmc
      h9b := hI.h9b
      hbB := hI.hbB
      hlen := hI.hlen
      hclen := hI.hclen
      hseedlen := hI.hseedlen
      hcap := hI.hcap
      hlenbits := hI.hlenbits
      hlenbits' := hI.hlenbits'
      hdictlen := by
        show (s.dict ++ [w ++ [ch]]).length =
          if (false : Bool) = true then s.declen
          else if s.declen < 2 ^ s.maxBits then s.declen + 1 else s.declen
        rw [if_neg (by simp), if_pos hdc]
        simp only [List.length_append, List.length_cons, List.length_nil]
        omega
      hfirst := fun h => absurd h (by simp)
      hprev := by
        intro _
        refine ⟨idxOf s.dict w, w, rfl, hkd, ?_, hwne, ?_⟩
        · exact he'
        · intro _
          show (s.dict ++ [w ++ [ch]])[s.declen]? = some (w ++ [ch])
          have hcat := List.getElem?_concat_length s.dict (w ++ [ch])
          rw [hdl0] at hcat
          exact hcat
      hw := fun _ => by simp
      hwdict := fun _ => List.mem_append_left _ hchdict
      hexp := by
        intro i hi hnd
        replace hi : i < s.declen := hi
        replace hnd : ¬ (s.blockMode = true ∧ i = 256) := hnd
        obtain ⟨li2, hg2, hn2, he2⟩ := hI.hexp i hi hnd
        refine ⟨li2, ?_, hn2, he2⟩
        rw [List.getElem?_append, if_pos (by omega : i < s.dict.length)]
        exact hg2
      hdummy := by
        intro hbmS
        have h256 : 256 < s.dict.length := by
          have : seedLen s.blockMode = 257 := by rw [hbmS]; rfl
          have h2 := hI.hseedlen
          omega
        rw [List.getElem?_append, if_pos h256]
        exact hI.hdummy hbmS
      hseedtake := hI.hseedtake }
  · -- a previous code exists
    have hf : s.first = false := by
      cases hx : s.first
      · rfl
      · exact absurd hx hf
    obtain ⟨pc, wprev, hpc, hpclt, hexpPrev, hwprevne, hpending⟩ := hI.hprev hf
    obtain ⟨b0, tl, hwcons⟩ : ∃ b0 tl, w = b0 :: tl := by
      cases w with
      | nil => exact absurd rfl hwne
      | cons b0 tl => exact ⟨b0, tl, rfl⟩
    have hb0head : w.headI = b0 := by rw [hwcons]; rfl
    have hnfirst : ¬ ({ s with first := false } : EncState).first = true := by simp
    have hpow2 : (2 : Nat) ^ (s.bits + 1) = 2 * 2 ^ s.bits := by rw [pow_succ]; ring
    have hpow9 : (2 : Nat) ^ 9 ≤ 2 ^ s.bits :=
      Nat.pow_le_pow_right (by norm_num) hI.h9b
    norm_num at hpow9
    by_cases hdcap : s.declen < 2 ^ s.maxBits
    · -- the decoder pushes a new entry, the encoder adds one when room remains
      have hdl1 : s.dict.length = s.declen + 1 := by
        rw [hI.hdictlen, if_neg (by simp [hf]), if_pos hdcap]
      have hpushc : c.prevCode ≠ none ∧
          c.prefixes.length < 2 ^ c.max_bits := by
        constructor
        · rw [hpc]; simp
        · rw [hI.hlen, hI.hB]; exact hdcap
      have hpend := hpending hdcap
      have hkle2 : idxOf s.dict w ≤ s.declen := by omega
      -- the expansion of the emitted code on the decoder's new table
      have hchsl : c.chars.length = c.prefixes.length := by
        rw [hI.hclen, hI.hlen]
      have hexpNew : expand_code (c.prefixes ++ [c.prevCode])
          (c.chars ++ [b0]) (idxOf s.dict w) = some w := by
        by_cases hkd : idxOf s.dict w < s.declen
        · have hnot256S : ¬ (s.blockMode = true ∧ idxOf s.dict w = 256) := hnot256
          obtain ⟨li, hg, hn, he⟩ := hI.hexp _ hkd hnot256S
          have hli : li = w := by
            rw [hg] at hkget
            simpa using hkget
          rw [hli] at he
          exact expand_code_append _ _ _ _ _ _ he
        · have hkeq : idxOf s.dict w = s.declen := by omega
          have hweq : w = wprev ++ [w.headI] := by
            rw [hkeq] at hkget
            rw [hpend] at hkget
            simpa using hkget.symm
          have hwb0 : w = wprev ++ [b0] := by rw [← hb0head]; exact hweq
          have hpclen : pc < c.prefixes.length := by rw [hI.hlen]; omega
          have hpush := expand_code_push c.prefixes c.chars pc b0 wprev
            hchsl hpclen hexpPrev
          rw [hpc]
          rw [show idxOf s.dict w = c.prefixes.length from by rw [hI.hlen]; omega]
          rw [hpush, ← hwb0]
      -- decoder state after the push, with the bump folded into an `if`
      have hc2 : nextCore c (idxOf s.dict w) w.headI =
          ⟨c.eof, c.max_bits, c.block_mode,
           (if s.declen + 1 > 2 ^ s.bits - 1 ∧ s.bits < s.maxBits
            then s.bits + 1 else s.bits),
           (if s.declen + 1 > 2 ^ s.bits - 1 ∧ s.bits < s.maxBits
            then 2 ^ (s.bits + 1) - 1 else 2 ^ s.bits - 1),
           c.prefixes ++ [c.prevCode], c.chars ++ [w.headI],
           some (idxOf s.dict w)⟩ := by
        by_cases hbump : s.declen + 1 > 2 ^ s.bits - 1 ∧ s.bits < s.maxBits
        · have hbump' : c.prefixes.length + 1 > c.max_code ∧
              c.current_bits < c.max_bits := by
            rw [hI.hlen, hI.hmc, hI.hbits, hI.hB]
            exact hbump
          rw [nextCore_push_bump c _ _ hpushc hbump']
          rw [if_pos hbump, if_pos hbump]
          rw [show c.current_bits = s.bits from hI.hbits]
        · have hbump' : ¬ (c.prefixes.length + 1 > c.max_code ∧
              c.current_bits < c.max_bits) := by
            rw [hI.hlen, hI.hmc, hI.hbits, hI.hB]
            exact hbump
          rw [nextCore_push_no_bump c _ _ hpushc hbump']
          rw [if_neg hbump, if_neg hbump]
          rw [show c.current_bits = s.bits from hI.hbits,
            show c.max_code = 2 ^ s.bits - 1 from hI.hmc]
      -- encoder state after the emission
      have hs1 : afterEmit s =
          ⟨s.dict,
           (if s.declen + 1 > 2 ^ s.bits - 1 ∧ s.bits < s.maxBits
            then s.bits + 1 else s.bits),
           s.declen + 1, s.first, s.maxBits, s.blockMode⟩ := by
        unfold afterEmit
        rw [if_neg (by simp [hf]), if_pos hdcap]
        by_cases hbump : s.declen + 1 > 2 ^ s.bits - 1 ∧ s.bits < s.maxBits
        · rw [if_pos hbump, if_pos hbump]
        · rw [if_neg hbump, if_neg hbump]
      have hs2 : addEntry (afterEmit s) (w ++ [ch]) =
          ⟨(if s.declen + 1 < 2 ^ s.maxBits
            then s.dict ++ [w ++ [ch]] else s.dict),
           (if s.declen + 1 > 2 ^ s.bits - 1 ∧ s.bits < s.maxBits
            then s.bits + 1 else s.bits),
           s.declen + 1, s.first, s.maxBits, s.blockMode⟩ := by
        rw [hs1]
        unfold addEntry
        by_cases hcap2 : s.declen + 1 < 2 ^ s.maxBits
        · have hx : s.dict.length < 2 ^ s.maxBits := by omega
          rw [if_pos hcap2, if_pos hx]
        · have hx : ¬ s.dict.length < 2 ^ s.maxBits := by omega
          rw [if_neg hcap2, if_neg hx]
      have h9b' := hI.h9b
      have hbB' := hI.hbB
      have hlb := hI.hlenbits
      have hlb' := hI.hlenbits'
      have hseedlen' := hI.hseedlen
      rw [hc2, hs2]
      exact {
        heof := hI.heof
        hbm := hI.hbm
        hB := hI.hB
        h9B := hI.h9B
        hbits := rfl
        hmc := by
          show (if s.declen + 1 > 2 ^ s.bits - 1 ∧ s.bits < s.maxBits
                then 2 ^ (s.bits + 1) - 1 else 2 ^ s.bits - 1) =
            2 ^ (if s.declen + 1 > 2 ^ s.bits - 1 ∧ s.bits < s.maxBits
                then s.bits + 1 else s.bits) - 1
          by_cases hbump : s.declen + 1 > 2 ^ s.bits - 1 ∧ s.bits < s.maxBits
          · rw [if_pos hbump, if_pos hbump]
          · rw [if_neg hbump, if_neg hbump]
        h9b := by
          show 9 ≤ (if s.declen + 1 > 2 ^ s.bits - 1 ∧ s.bits < s.maxBits
                then s.bits + 1 else s.bits)
          by_cases hbump : s.declen + 1 > 2 ^ s.bits - 1 ∧ s.bits < s.maxBits
          · rw [if_pos hbump]; omega
          · rw [if_neg hbump]; exact h9b'
        hbB := by
          show (if s.declen + 1 > 2 ^ s.bits - 1 ∧ s.bits < s.maxBits
                then s.bits + 1 else s.bits) ≤ s.maxBits
          by_cases hbump : s.declen + 1 > 2 ^ s.bits - 1 ∧ s.bits < s.maxBits
          · rw [if_pos hbump]; omega
          · rw [if_neg hbump]; exact hbB'
        hlen := by
          show (c.prefixes ++ [c.prevCode]).length = s.declen + 1
          have := hI.hlen
          simp only [List.length_append, List.length_cons, List.length_nil]
          omega
        hclen := by
          show (c.chars ++ [w.headI]).length = s.declen + 1
          have := hI.hclen
          simp only [List.length_append, List.length_cons, List.length_nil]
          omega
        hseedlen := by
          show seedLen s.blockMode ≤ s.declen + 1
          omega
        hcap := by
          show s.declen + 1 ≤ 2 ^ s.maxBits
          omega
        hlenbits := by
          show s.declen + 1 ≤ 2 ^ (if s.declen + 1 > 2 ^ s.bits - 1 ∧
              s.bits < s.maxBits then s.bits + 1 else s.bits)
          by_cases hbump : s.declen + 1 > 2 ^ s.bits - 1 ∧ s.bits < s.maxBits
          · rw [if_pos hbump, hpow2]; omega
          · rw [if_neg hbump]
            by_cases hsb : s.bits < s.maxBits
            · have hng : ¬ (s.declen + 1 > 2 ^ s.bits - 1) :=
                fun hgt => hbump ⟨hgt, hsb⟩
              omega
            · have hbeq : s.bits = s.maxBits := by omega
              rw [hbeq]; omega
        hlenbits' := by
          show (if s.declen + 1 > 2 ^ s.bits - 1 ∧ s.bits < s.maxBits
                then s.bits + 1 else s.bits) < s.maxBits →
            s.declen + 1 < 2 ^ (if s.declen + 1 > 2 ^ s.bits - 1 ∧
              s.bits < s.maxBits then s.bits + 1 else s.bits)
          by_cases hbump : s.declen + 1 > 2 ^ s.bits - 1 ∧ s.bits < s.maxBits
          · rw [if_pos hbump]
            intro _
            have := hlb' hbump.2
            rw [hpow2]
            omega
          · rw [if_neg hbump]
            intro hsb
            have hng : ¬ (s.declen + 1 > 2 ^ s.bits - 1) :=
              fun hgt => hbump ⟨hgt, hsb⟩
            omega
        hdictlen := by
          show (if s.declen + 1 < 2 ^ s.maxBits then s.dict ++ [w ++ [ch]]
                else s.dict).length =
            if s.first = true then s.declen + 1
            else if s.declen + 1 < 2 ^ s.maxBits then s.declen + 1 + 1
                 else s.declen + 1
          rw [if_neg (show ¬ s.first = true by simp [hf])]
          by_cases hcap2 : s.declen + 1 < 2 ^ s.maxBits
          · rw [if_pos hcap2, if_pos hcap2]
            simp only [List.length_append, List.length_cons, List.length_nil]
            omega
          · rw [if_neg hcap2, if_neg hcap2]
            exact hdl1
        hfirst := fun h => absurd h (by simp [hf])
        hprev := by
          intro _
          refine ⟨idxOf s.dict w, w, rfl, ?_, ?_, hwne, ?_⟩
          · show idxOf s.dict w < s.declen + 1
            omega
          · show expand_code (c.prefixes ++ [c.prevCode])
              (c.chars ++ [w.headI]) (idxOf s.dict w) = some w
            rw [hb0head]
            exact hexpNew
          · intro hcap2
            replace hcap2 : s.declen + 1 < 2 ^ s.maxBits := hcap2
            show (if s.declen + 1 < 2 ^ s.maxBits then s.dict ++ [w ++ [ch]]
                  else s.dict)[s.declen + 1]? = some (w ++ [ch])
            rw [if_pos hcap2]
            have hcat := List.getElem?_concat_length s.dict (w ++ [ch])
            rw [hdl1] at hcat
            exact hcat
        hw := fun _ => by simp
        hwdict := by
          intro _
          show [ch] ∈ (if s.declen + 1 < 2 ^ s.maxBits
            then s.dict ++ [w ++ [ch]] else s.dict)
          by_cases hcap2 : s.declen + 1 < 2 ^ s.maxBits
          · rw [if_pos hcap2]; exact List.mem_append_left _ hchdict
          · rw [if_neg hcap2]; exact hchdict
        hexp := by
          intro i hi hnd
          replace hi : i < s.declen + 1 := hi
          replace hnd : ¬ (s.blockMode = true ∧ i = 256) := hnd
          by_cases hid : i < s.declen
          · obtain ⟨li, hg, hn0, he⟩ := hI.hexp i hid hnd
            refine ⟨li, ?_, hn0, ?_⟩
            · show (if s.declen + 1 < 2 ^ s.maxBits then s.dict ++ [w ++ [ch]]
                    else s.dict)[i]? = some li
              by_cases hcap2 : s.declen + 1 < 2 ^ s.maxBits
              · rw [if_pos hcap2, List.getElem?_append,
                  if_pos (by omega : i < s.dict.length)]
                exact hg
              · rw [if_neg hcap2]; exact hg
            · show expand_code (c.prefixes ++ [c.prevCode])
                (c.chars ++ [w.headI]) i = some li
              exact expand_code_append _ _ _ _ _ _ he
          · have hieq : i = s.declen := by omega
            subst hieq
            refine ⟨wprev ++ [b0], ?_, by simp, ?_⟩
            · show (if s.declen + 1 < 2 ^ s.maxBits then s.dict ++ [w ++ [ch]]
                    else s.dict)[s.declen]? = some (wprev ++ [b0])
              have hpend' : s.dict[s.declen]? = some (wprev ++ [b0]) := by
                rw [← hb0head]; exact hpend
              by_cases hcap2 : s.declen + 1 < 2 ^ s.maxBits
              · rw [if_pos hcap2, List.getElem?_append,
                  if_pos (by omega : s.declen < s.dict.length)]
                exact hpend'
              · rw [if_neg hcap2]; exact hpend'
            · show expand_code (c.prefixes ++ [c.prevCode])
                (c.chars ++ [w.headI]) s.declen = some (wprev ++ [b0])
              have hpclen : pc < c.prefixes.length := by rw [hI.hlen]; omega
              have hpush := expand_code_push c.prefixes c.chars pc b0 wprev
                hchsl hpclen hexpPrev
              rw [hpc, hb0head,
                show s.declen = c.prefixes.length from hI.hlen.symm]
              exact hpush
        hdummy := by
          intro hbmS
          replace hbmS : s.blockMode = true := hbmS
          have hsl : seedLen s.blockMode = 257 := by rw [hbmS]; rfl
          have h256 : 256 < s.dict.length := by omega
          show (if s.declen + 1 < 2 ^ s.maxBits then s.dict ++ [w ++ [ch]]
                else s.dict)[256]? = some []
          have hd := hI.hdummy hbmS
          by_cases hcap2 : s.declen + 1 < 2 ^ s.maxBits
          · rw [if_pos hcap2, List.getElem?_append, if_pos h256]
            exact hd
          · rw [if_neg hcap2]; exact hd
        hseedtake := by
          constructor
          · show (c.prefixes ++ [c.prevCode]).take (seedLen s.blockMode) =
              seedPrefixes s.blockMode
            rw [List.take_append_of_le_length
              (by rw [hI.hlen]; exact hseedlen')]
            exact hI.hseedtake.1
          · show (c.chars ++ [w.headI]).take (seedLen s.blockMode) =
              seedChars s.blockMode
            rw [List.take_append_of_le_length
              (by rw [hI.hclen]; exact hseedlen')]
            exact hI.hseedtake.2 }
    · -- the table is full: neither side changes its table
      have hdl2 : s.dict.length = s.declen := by
        rw [hI.hdictlen, if_neg (by simp [hf]), if_neg hdcap]
      have hkd : idxOf s.dict w < s.declen := by omega
      have hc2 : nextCore c (idxOf s.dict w) w.headI =
          { c with prevCode := some (idxOf s.dict w) } := by
        apply nextCore_no_push
        rintro ⟨_, hlt⟩
        rw [hI.hlen, hI.hB] at hlt
        exact hdcap hlt
      have hs1' : afterEmit s = s := by
        unfold afterEmit
        rw [if_neg (by simp [hf]), if_neg hdcap]
      have hs2 : addEntry (afterEmit s) (w ++ [ch]) = s := by
        rw [hs1']
        unfold addEntry
        rw [if_neg (by rw [hdl2]; omega)]
      rw [hc2, hs2]
      obtain ⟨li, hg, hn, he⟩ := hI.hexp _ hkd hnot256
      have hli : li = w := by
        rw [hg] at hkget
        simpa using hkget
      have he' : expand_code c.prefixes c.chars (idxOf s.dict w) = some w := by
        rw [hli] at he
        exact he
      exact {
        heof := hI.heof
        hbm := hI.hbm
        hB := hI.hB
        h9B := hI.h9B
        hbits := hI.hbits
        hmc := hI.hmc
        h9b := hI.h9b
        hbB := hI.hbB
        hlen := hI.hlen
        hclen := hI.hclen
        hseedlen := hI.hseedlen
        hcap := hI.hcap
        hlenbits := hI.hlenbits
        hlenbits' := hI.hlenbits'
        hdictlen := hI.hdictlen
        hfirst := fun h => absurd h (by simp [hf])
        hprev := by
          intro _
          exact ⟨idxOf s.dict w, w, rfl, hkd, he', hwne,
            fun hlt => absurd hlt hdcap⟩
        hw := fun _ => by simp
        hwdict := fun _ => hchdict
        hexp := hI.hexp
        hdummy := hI.hdummy
        hseedtake := hI.hseedtake }

/-- Under the coupling invariant every single-byte string is in the
encoder's dictionary (it expands through the decoder's seeded roots). -/
theorem encInv_byte_mem (s : EncState) (w : List Nat) (c : ZCore) (ch : Nat)
    (hI : EncInv s w c) (hch : ch < 256) : [ch] ∈ s.dict := by
  have hchlen : ch < s.declen := by
    have h1 := seedLen_le s.blockMode
    have h2 := hI.hseedlen
    omega
  obtain ⟨li, hg, hn, he⟩ := hI.hexp ch hchlen (by rintro ⟨_, h⟩; omega)
  have hbyte : expand_code c.prefixes c.chars ch = some [ch] :=
    expand_code_byte c s.blockMode ch hch (seedLen_le s.blockMode).1
      hI.hseedtake.1 hI.hseedtake.2
  rw [he] at hbyte
  simp only [Option.some.injEq] at hbyte
  rw [hbyte] at hg
  exact List.getElem?_mem hg

/-- Extending the current match (the longest-match continuation) keeps
the coupling invariant: only the fields mentioning `w` change form. -/
theorem encInv_extend (s : EncState) (w : List Nat) (c : ZCore) (ch : Nat)
    (hI : EncInv s w c) (hmem : (w ++ [ch]) ∈ s.dict) :
    EncInv s (w ++ [ch]) c :=
  { heof := hI.heof
    hbm := hI.hbm
    hB := hI.hB
    h9B := hI.h9B
    hbits := hI.hbits
    hmc := hI.hmc
    h9b := hI.h9b
    hbB := hI.hbB
    hlen := hI.hlen
    hclen := hI.hclen
    hseedlen := hI.hseedlen
    hcap := hI.hcap
    hlenbits := hI.hlenbits
    hlenbits' := hI.hlenbits'
    hdictlen := hI.hdictlen
    hfirst := hI.hfirst
    hprev := by
      intro hf
      obtain ⟨pc, wprev, h1, h2, h3, h4, h5⟩ := hI.hprev hf
      have hwne := hI.hw hf
      refine ⟨pc, wprev, h1, h2, h3, h4, ?_⟩
      intro hcap2
      rw [headI_append w [ch] hwne]
      exact h5 hcap2
    hw := fun _ => by simp
    hwdict := fun _ => hmem
    hexp := hI.hexp
    hdummy := hI.hdummy
    hseedtake := hI.hseedtake }

/-- The coupling invariant at a fresh start (initial state, or right
after a CLEAR): decoder core freshly seeded, encoder on the seeded
dictionary with width 9, current match empty or a single byte. -/
theorem encInv_start (bm : Bool) (B : Nat) (c : ZCore) (w : List Nat)
    (h9B : 9 ≤ B)
    (heof : c.eof = false) (hbm : c.block_mode = bm) (hB : c.max_bits = B)
    (hbits : c.current_bits = 9) (hmc : c.max_code = 2 ^ 9 - 1)
    (hpfx : c.prefixes = seedPrefixes bm) (hchs : c.chars = seedChars bm)
    (hprev : c.prevCode = none)
    (hw : w = [] ∨ ∃ ch, ch < 256 ∧ w = [ch]) :
    EncInv { dict := seedDict bm, bits := 9, declen := seedLen bm,
             first := true, maxBits := B, blockMode := bm } w c := by
  have hsl := seedLen_le bm
  have hpB : (512 : Nat) ≤ 2 ^ B := by
    have := Nat.pow_le_pow_right (show 1 ≤ 2 by norm_num) h9B
    norm_num at this
    exact this
  exact {
    heof := heof
    hbm := hbm
    hB := hB
    h9B := h9B
    hbits := hbits
    hmc := hmc
    h9b := le_refl 9
    hbB := h9B
    hlen := by rw [hpfx, seedPrefixes_length]
    hclen := by rw [hchs, seedChars_length]
    hseedlen := le_refl _
    hcap := by
      show seedLen bm ≤ 2 ^ B
      omega
    hlenbits := by
      show seedLen bm ≤ 2 ^ 9
      have h512 : (2 : Nat) ^ 9 = 512 := by norm_num
      omega
    hlenbits' := by
      intro _
      show seedLen bm < 2 ^ 9
      have h512 : (2 : Nat) ^ 9 = 512 := by norm_num
      omega
    hdictlen := by rw [if_pos rfl, seedDict_length]
    hfirst := fun _ => ⟨hprev, rfl, rfl, rfl⟩
    hprev := fun h => by simp at h
    hw := fun h => by simp at h
    hwdict := by
      intro hwne
      rcases hw with h | ⟨ch, hch, h⟩
      · exact absurd h hwne
      · rw [h]
        exact singleton_mem_seedDict bm ch hch
    hexp := by
      intro i hi hn
      by_cases hi256 : i < 256
      · refine ⟨[i], seedDict_getElem?_lt bm i hi256, by simp, ?_⟩
        rw [hpfx, hchs]
        exact expand_code_seed bm i hi256
      · exfalso
        replace hi : i < seedLen bm := hi
        have hieq : i = 256 := by omega
        have hbm256 : bm = true := by
          cases hx : bm
          · exfalso
            rw [hx] at hi
            have h256' : seedLen false = 256 := rfl
            omega
          · rfl
        exact hn ⟨hbm256, hieq⟩
    hdummy := by
      intro hbmS
      replace hbmS : bm = true := hbmS
      rw [hbmS]
      exact seedDict_getElem?_256
    hseedtake := by
      constructor
      · rw [hpfx, ← seedPrefixes_length bm, List.take_length]
      · rw [hchs, ← seedChars_length bm, List.take_length] }

/-- After the encoder requests a CLEAR (block mode only) and the decoder
processes code 256, both sides are back at the seeded state and the
coupling invariant restarts with the single-byte match. -/
theorem encInv_after_clear (s1 : EncState) (x : List Nat) (c1 : ZCore)
    (ch : Nat) (hI1 : EncInv s1 x c1) (hbm : s1.blockMode = true)
    (hch : ch < 256) :
    EncInv (encReset s1) [ch] (applyClear c1) := by
  have h257 : seedLen s1.blockMode = 257 := by rw [hbm]; rfl
  exact encInv_start s1.blockMode s1.maxBits (applyClear c1) [ch] hI1.h9B
    (show c1.eof = false from hI1.heof)
    (show c1.block_mode = s1.blockMode from hI1.hbm)
    (show c1.max_bits = s1.maxBits from hI1.hB)
    rfl rfl
    (show c1.prefixes.take 257 = seedPrefixes s1.blockMode from by
      rw [show (257 : Nat) = seedLen s1.blockMode from h257.symm]
      exact hI1.hseedtake.1)
    (show c1.chars.take 257 = seedChars s1.blockMode from by
      rw [show (257 : Nat) = seedLen s1.blockMode from h257.symm]
      exact hI1.hseedtake.2)
    rfl
    (Or.inr ⟨ch, hch, rfl⟩)

/-- The heart of the round-trip: from any coupled encoder/decoder pair,
the decoder run over the remaining emitted codes returns exactly the
pending match followed by the remaining input, every code is emitted at
the width the decoder will use to read it, and all widths are at least 9
with each code in range. -/
theorem encMain (data : List Nat) :
    ∀ (pol : List Bool) (s : EncState) (w : List Nat) (c : ZCore),
      EncInv s w c → (∀ b ∈ data, b < 256) →
      runCodes c ((encodeLoop s w data pol).map Prod.snd) = .ok (w ++ data) ∧
      WidthsOK c (encodeLoop s w data pol) ∧
      (∀ p ∈ encodeLoop s w data pol, 9 ≤ p.1 ∧ p.2 < 2 ^ p.1) := by
  induction data with
  | nil =>
    intro pol s w c hI _
    by_cases hw : w = []
    · subst hw
      simp only [encodeLoop]
      rw [if_pos trivial]
      refine ⟨rfl, trivial, by simp⟩
    · obtain ⟨hstep, hklt, hnot256c, _⟩ := emit_step s w c hI hw
      simp only [encodeLoop]
      rw [if_neg hw]
      refine ⟨?_, ?_, ?_⟩
      · simp only [List.map_cons, List.map_nil]
        rw [runCodes_cons_step c (idxOf s.dict w) [] w
          (nextCore c (idxOf s.dict w) w.headI) hnot256c hstep]
        rfl
      · refine ⟨hI.hbits.symm, hklt, ?_⟩
        by_cases hcase : c.block_mode = true ∧ idxOf s.dict w = 256
        · rw [if_pos hcase]; trivial
        · rw [if_neg hcase]; intro out c2 _; trivial
      · intro p hp
        simp only [List.mem_singleton] at hp
        subst hp
        exact ⟨hI.h9b, hklt⟩
  | cons ch rest ih =>
    intro pol s w c hI hdata
    have hch : ch < 256 := hdata ch (by simp)
    have hrest : ∀ b ∈ rest, b < 256 := fun b hb => hdata b (by simp [hb])
    by_cases hmatch : (w ++ [ch]) ∈ s.dict
    · have hI' := encInv_extend s w c ch hI hmatch
      obtain ⟨h1, h2, h3⟩ := ih pol s (w ++ [ch]) c hI' hrest
      simp only [encodeLoop]
      rw [if_pos hmatch]
      refine ⟨?_, h2, h3⟩
      rw [h1, List.append_assoc]
      rfl
    · have hchd : [ch] ∈ s.dict := encInv_byte_mem s w c ch hI hch
      have hwne : w ≠ [] := by
        intro hweq
        apply hmatch
        rw [hweq]
        simpa using hchd
      obtain ⟨hstep, hklt, hnot256c, _⟩ := emit_step s w c hI hwne
      have hI1 := emit_preserve s w c ch hI hwne hch
      have hgen : ∀ pol' : List Bool,
          runCodes c (((s.bits, idxOf s.dict w) ::
            encodeLoop (addEntry (afterEmit s) (w ++ [ch])) [ch] rest
              pol').map Prod.snd) = .ok (w ++ ch :: rest) ∧
          WidthsOK c ((s.bits, idxOf s.dict w) ::
            encodeLoop (addEntry (afterEmit s) (w ++ [ch])) [ch] rest pol') ∧
          (∀ p ∈ (s.bits, idxOf s.dict w) ::
            encodeLoop (addEntry (afterEmit s) (w ++ [ch])) [ch] rest pol',
            9 ≤ p.1 ∧ p.2 < 2 ^ p.1) := by
        intro pol'
        obtain ⟨h1, h2, h3⟩ := ih pol' (addEntry (afterEmit s) (w ++ [ch]))
          [ch] (nextCore c (idxOf s.dict w) w.headI) hI1 hrest
        refine ⟨?_, ?_, ?_⟩
        · simp only [List.map_cons]
          rw [runCodes_cons_step c (idxOf s.dict w) _ w
            (nextCore c (idxOf s.dict w) w.headI) hnot256c hstep, h1]
          rfl
        · refine ⟨hI.hbits.symm, hklt, ?_⟩
          rw [if_neg hnot256c]
          intro out c2 h
          rw [hstep] at h
          simp only [Except.ok.injEq, Prod.mk.injEq] at h
          obtain ⟨h4, h5⟩ := h
          rw [← h5]
          exact h2
        · intro p hp
          rcases List.mem_cons.mp hp with h | h
          · subst h
            exact ⟨hI.h9b, hklt⟩
          · exact h3 p h
      cases pol with
      | nil =>
        simp only [encodeLoop]
        rw [if_neg hmatch]
        exact hgen []
      | cons p ptl =>
        cases p
        · simp only [encodeLoop]
          rw [if_neg hmatch]
          exact hgen ptl
        · simp only [encodeLoop]
          rw [if_neg hmatch]
          by_cases hbm1 : (addEntry (afterEmit s) (w ++ [ch])).blockMode = true
          · rw [if_pos hbm1]
            have hI2 := encInv_after_clear (addEntry (afterEmit s) (w ++ [ch]))
              [ch] (nextCore c (idxOf s.dict w) w.headI) ch hI1 hbm1 hch
            obtain ⟨h1, h2, h3⟩ := ih ptl
              (encReset (addEntry (afterEmit s) (w ++ [ch]))) [ch]
              (applyClear (nextCore c (idxOf s.dict w) w.headI)) hI2 hrest
            have hc1bm : (nextCore c (idxOf s.dict w) w.headI).block_mode =
                true := by
              rw [hI1.hbm]; exact hbm1
            have h256lt : 256 <
                2 ^ (addEntry (afterEmit s) (w ++ [ch])).bits := by
              have h9 := hI1.h9b
              have h512 : (512 : Nat) ≤
                  2 ^ (addEntry (afterEmit s) (w ++ [ch])).bits := by
                have := Nat.pow_le_pow_right (show 1 ≤ 2 by norm_num) h9
                norm_num at this
                exact this
              omega
            refine ⟨?_, ?_, ?_⟩
            · simp only [List.map_cons]
              rw [runCodes_cons_step c (idxOf s.dict w) _ w
                (nextCore c (idxOf s.dict w) w.headI) hnot256c hstep]
              rw [runCodes_cons_clear _ _ hc1bm, h1]
              rfl
            · refine ⟨hI.hbits.symm, hklt, ?_⟩
              rw [if_neg hnot256c]
              intro out c2 h
              rw [hstep] at h
              simp only [Except.ok.injEq, Prod.mk.injEq] at h
              obtain ⟨h4, h5⟩ := h
              rw [← h5]
              refine ⟨hI1.hbits.symm, h256lt, ?_⟩
              rw [if_pos ⟨hc1bm, rfl⟩]
              exact h2
            · intro p hp
              rcases List.mem_cons.mp hp with h | h
              · subst h; exact ⟨hI.h9b, hklt⟩
              rcases List.mem_cons.mp h with h' | h'
              · subst h'; exact ⟨hI1.h9b, h256lt⟩
              · exact h3 p h'
          · rw [if_neg hbm1]
            exact hgen ptl

theorem stepCode_eof (c : ZCore) (code : Nat) (out : List Nat) (c2 : ZCore)
    (h : stepCode c code = .ok (out, c2)) : c2.eof = c.eof := by
  obtain ⟨hres, b0, r, hout, hc2⟩ := stepCode_ok_elim c code out c2 h
  subst hc2
  exact nextCore_eof c code b0

theorem stepCode_bits_ge (c : ZCore) (code : Nat) (out : List Nat)
    (c2 : ZCore) (h : stepCode c code = .ok (out, c2)) :
    c.current_bits ≤ c2.current_bits := by
  obtain ⟨hres, b0, r, hout, hc2⟩ := stepCode_ok_elim c code out c2 h
  subst hc2
  rcases (nextCore_bits_eq c code b0).2 with h' | h'
  · omega
  · omega

theorem packVal_lt (pairs : List (Nat × Nat))
    (h : ∀ p ∈ pairs, p.2 < 2 ^ p.1) :
    packVal pairs < 2 ^ sumW pairs := by
  induction pairs with
  | nil => simp [packVal, sumW]
  | cons p rest ih =>
    obtain ⟨pw, pk⟩ := p
    have hk : pk < 2 ^ pw := h (pw, pk) (by simp)
    have hr : packVal rest < 2 ^ sumW rest :=
      ih (fun q hq => h q (by simp [hq]))
    simp only [packVal, sumW]
    rw [pow_add]
    calc pk + 2 ^ pw * packVal rest
        < 2 ^ pw + 2 ^ pw * packVal rest := by omega
      _ = 2 ^ pw * (packVal rest + 1) := by ring
      _ ≤ 2 ^ pw * 2 ^ sumW rest := Nat.mul_le_mul_left _ (by omega)

theorem sumW_ge (pairs : List (Nat × Nat)) (h : ∀ p ∈ pairs, 9 ≤ p.1) :
    9 * pairs.length ≤ sumW pairs := by
  induction pairs with
  | nil => simp [sumW]
  | cons p rest ih =>
    obtain ⟨pw, pk⟩ := p
    have h9 : 9 ≤ pw := h (pw, pk) (by simp)
    have hr := ih (fun q hq => h q (by simp [hq]))
    simp only [sumW, List.length_cons]
    omega

theorem natBytesLE_length : ∀ (cnt n : Nat), (natBytesLE n cnt).length = cnt := by
  intro cnt
  induction cnt with
  | zero => intro n; rfl
  | succ cnt ih =>
    intro n
    simp only [natBytesLE, List.length_cons, ih]

theorem natBytesLE_lt : ∀ (cnt n : Nat), ∀ x ∈ natBytesLE n cnt, x < 256 := by
  intro cnt
  induction cnt with
  | zero => intro n x hx; simp [natBytesLE] at hx
  | succ cnt ih =>
    intro n x hx
    simp only [natBytesLE, List.mem_cons] at hx
    rcases hx with h | h
    · rw [h]
      exact Nat.mod_lt _ (by norm_num)
    · exact ih _ x h

theorem bytesVal_natBytesLE : ∀ (cnt n : Nat), n < 256 ^ cnt →
    bytesVal (natBytesLE n cnt) = n := by
  intro cnt
  induction cnt with
  | zero =>
    intro n hn
    have h1 : (256 : Nat) ^ 0 = 1 := by norm_num
    have : n = 0 := by omega
    rw [this]
    rfl
  | succ cnt ih =>
    intro n hn
    simp only [natBytesLE, bytesVal]
    rw [ih (n / 256) ?_]
    · exact Nat.mod_add_div n 256
    · have hp : (256 : Nat) ^ (cnt + 1) = 256 ^ cnt * 256 := by
        rw [pow_succ]
      rw [Nat.div_lt_iff_lt_mul (by norm_num : (0 : Nat) < 256)]
      omega

/-- Reading one code from the bit accumulator: when the packed value
decomposes as `k1` at the decoder's current width followed by `V`, and
at least one code's worth of bits remains, `read_code` returns exactly
`k1` and the accumulator window shifts by the width. -/
theorem read_code_spec (c : ZCore) (buf bib : Nat) (inp : List Nat)
    (k1 V : Nat)
    (hbuf : buf < 2 ^ bib)
    (hbytes : ∀ x ∈ inp, x < 256)
    (hval : buf + 2 ^ bib * bytesVal inp = k1 + 2 ^ c.current_bits * V)
    (hk : k1 < 2 ^ c.current_bits)
    (havail : c.current_bits ≤ bib + 8 * inp.length) :
    ∃ buf2 bib2 inp2,
      read_code ⟨c, buf, bib, inp⟩ = some (k1, ⟨c, buf2, bib2, inp2⟩) ∧
      buf2 < 2 ^ bib2 ∧ (∀ x ∈ inp2, x < 256) ∧
      buf2 + 2 ^ bib2 * bytesVal inp2 = V ∧
      bib2 + 8 * inp2.length = bib + 8 * inp.length - c.current_bits := by
  cases hf : fillBuffer inp buf bib c.current_bits with
  | none =>
    exfalso
    have := fillBuffer_none_bound inp buf bib c.current_bits hf
    omega
  | some trip =>
    obtain ⟨b2, t2, rest⟩ := trip
    obtain ⟨h1, h2, h3⟩ :=
      fillBuffer_some_spec inp buf bib c.current_bits b2 t2 rest hf
    obtain ⟨hb2, hvq, hrest⟩ := h3 hbuf hbytes
    have hPQ : (2 : Nat) ^ t2 =
        2 ^ c.current_bits * 2 ^ (t2 - c.current_bits) := by
      rw [← pow_add]
      congr 1
      omega
    have hvaleq : b2 + 2 ^ t2 * bytesVal rest =
        k1 + 2 ^ c.current_bits * V := by rw [hvq, hval]
    have hmod : b2 % 2 ^ c.current_bits = k1 := by
      have hml : (b2 + 2 ^ t2 * bytesVal rest) % 2 ^ c.current_bits =
          (k1 + 2 ^ c.current_bits * V) % 2 ^ c.current_bits := by rw [hvaleq]
      rw [hPQ, mul_assoc, Nat.add_mul_mod_self_left,
        Nat.add_mul_mod_self_left] at hml
      rw [Nat.mod_eq_of_lt hk] at hml
      exact hml
    have hX : 2 ^ c.current_bits * (b2 / 2 ^ c.current_bits) + k1 = b2 := by
      rw [← hmod]
      exact Nat.div_add_mod b2 (2 ^ c.current_bits)
    have hdval : b2 / 2 ^ c.current_bits +
        2 ^ (t2 - c.current_bits) * bytesVal rest = V := by
      have hP : 0 < (2 : Nat) ^ c.current_bits :=
        Nat.pos_pow_of_pos _ (by norm_num)
      have h4 : 2 ^ c.current_bits * (b2 / 2 ^ c.current_bits +
          2 ^ (t2 - c.current_bits) * bytesVal rest) =
          2 ^ c.current_bits * V := by
        rw [mul_add, ← mul_assoc, ← hPQ]
        omega
      exact Nat.eq_of_mul_eq_mul_left hP h4
    have hblt : b2 / 2 ^ c.current_bits < 2 ^ (t2 - c.current_bits) := by
      rw [Nat.div_lt_iff_lt_mul (Nat.pos_pow_of_pos _ (by norm_num))]
      rw [mul_comm, ← hPQ]
      exact hb2
    refine ⟨b2 / 2 ^ c.current_bits, t2 - c.current_bits, rest, ?_, hblt,
      hrest, hdval, by omega⟩
    simp only [read_code]
    rw [hf]
    show some (b2 % 2 ^ c.current_bits,
      (⟨c, b2 / 2 ^ c.current_bits, t2 - c.current_bits, rest⟩ : ZState)) =
      some (k1, (⟨c, b2 / 2 ^ c.current_bits, t2 - c.current_bits,
        rest⟩ : ZState))
    rw [hmod]

/-- The byte-level decoder loop agrees with the code-level machine when
the input bytes hold exactly the packed `(width, code)` sequence (with
up to seven zero padding bits in the final byte). -/
theorem runZ_eq_runCodes (pairs : List (Nat × Nat)) :
    ∀ (fuel : Nat) (c : ZCore) (buf bib : Nat) (inp : List Nat),
      pairs.length < fuel →
      c.eof = false →
      9 ≤ c.current_bits →
      WidthsOK c pairs →
      (∀ p ∈ pairs, 9 ≤ p.1) →
      buf < 2 ^ bib →
      (∀ x ∈ inp, x < 256) →
      buf + 2 ^ bib * bytesVal inp = packVal pairs →
      sumW pairs ≤ bib + 8 * inp.length →
      bib + 8 * inp.length < sumW pairs + 8 →
      runZ fuel ⟨c, buf, bib, inp⟩ = runCodes c (pairs.map Prod.snd) := by
  induction pairs with
  | nil =>
    intro fuel c buf bib inp hfuel heof h9 _ _ hbuf _ _ _ hhi
    replace hfuel : 0 < fuel := hfuel
    obtain ⟨f, rfl⟩ : ∃ f, fuel = f + 1 := ⟨fuel - 1, by omega⟩
    have hs0 : sumW [] = 0 := rfl
    rw [hs0] at hhi
    have hempty : inp = [] := by
      have hl : inp.length = 0 := by omega
      exact List.length_eq_zero.mp hl
    subst hempty
    replace hhi : bib + 8 * 0 < 0 + 8 := hhi
    have hrc : read_code ⟨c, buf, bib, []⟩ = none := by
      have hfill : fillBuffer [] buf bib c.current_bits = none := by
        simp only [fillBuffer]
        rw [if_pos (by omega)]
      simp only [read_code]
      rw [hfill]
    rw [runZ_none f _ (by simp [heof]) hrc]
    rfl
  | cons pr rest ih =>
    obtain ⟨w1, k1⟩ := pr
    intro fuel c buf bib inp hfuel heof h9 hwok hwid hbuf hbytes hval hlo hhi
    replace hfuel : rest.length + 1 < fuel := hfuel
    obtain ⟨f, rfl⟩ : ∃ f, fuel = f + 1 := ⟨fuel - 1, by omega⟩
    obtain ⟨hw1, hk1, hcont⟩ := hwok
    subst hw1
    have hsum : sumW ((c.current_bits, k1) :: rest) =
        c.current_bits + sumW rest := rfl
    have hpk : packVal ((c.current_bits, k1) :: rest) =
        k1 + 2 ^ c.current_bits * packVal rest := rfl
    rw [hsum] at hlo hhi
    obtain ⟨buf2, bib2, inp2, hrc, hbuf2, hbytes2, hval2, hbits2⟩ :=
      read_code_spec c buf bib inp k1 (packVal rest) hbuf hbytes
        (by rw [hval]; exact hpk) hk1 (by omega)
    rw [runZ_some f ⟨c, buf, bib, inp⟩ ⟨c, buf2, bib2, inp2⟩ k1
      (by simp [heof]) hrc]
    simp only [List.map_cons]
    by_cases hc256 : c.block_mode = true ∧ k1 = 256
    · obtain ⟨hbmT, hk256⟩ := hc256
      subst hk256
      have hcnd : c.block_mode = true ∧ (256 : Nat) = 256 := ⟨hbmT, rfl⟩
      rw [if_pos hcnd] at hcont
      rw [if_pos hcnd]
      rw [runCodes_cons_clear c _ hbmT]
      exact ih f (applyClear c) buf2 bib2 inp2 (by omega)
        (show (applyClear c).eof = false from heof)
        (show 9 ≤ (applyClear c).current_bits from le_refl 9)
        hcont (fun p hp => hwid p (by simp [hp])) hbuf2 hbytes2 hval2
        (by omega) (by omega)
    · rw [if_neg hc256]
      rw [if_neg hc256] at hcont
      cases hsc : stepCode c k1 with
      | error e =>
        have hR : runCodes c (k1 :: List.map Prod.snd rest) = .error e := by
          simp only [runCodes]
          rw [if_neg hc256, hsc]
        rw [hR]
      | ok pr2 =>
        obtain ⟨out, c2⟩ := pr2
        have heof2 : c2.eof = false := by
          rw [stepCode_eof c k1 out c2 hsc]
          exact heof
        have h9b2 : 9 ≤ c2.current_bits :=
          le_trans h9 (stepCode_bits_ge c k1 out c2 hsc)
        have hwok2 := hcont out c2 hsc
        have hihr := ih f c2 buf2 bib2 inp2 (by omega) heof2 h9b2 hwok2
          (fun p hp => hwid p (by simp [hp])) hbuf2 hbytes2 hval2
          (by omega) (by omega)
        have hR : runCodes c (k1 :: List.map Prod.snd rest) =
            match runCodes c2 (List.map Prod.snd rest) with
            | .ok tail => .ok (out ++ tail)
            | .error e => .error e :=
          runCodes_cons_step c k1 _ out c2 hc256 hsc
        rw [hR, ← hihr]

/-- Parsing the header of an encoded stream: the magic bytes pass, the
control byte's low five bits give back `max_code_bits` and its high bit
the block-mode flag, and the remaining input is exactly the packed code
bytes. -/
theorem encodeZ_new (bm : Bool) (B : Nat) (pol : List Bool)
    (data : List Nat) (h9 : 9 ≤ B) (h16 : B ≤ 16) :
    ZDecoder.new (encodeZ bm B pol data) =
      ⟨⟨false, B, bm, 9, 2 ^ 9 - 1, seedPrefixes bm, seedChars bm, none⟩,
       0, 0,
       natBytesLE (packVal (encodeLoop (encInit bm B) [] data pol))
         ((sumW (encodeLoop (encInit bm B) [] data pol) + 7) / 8)⟩ := by
  have hmod : (B + if bm = true then 128 else 0) % 32 = B := by
    cases bm
    · show (B + 0) % 32 = B
      omega
    · show (B + 128) % 32 = B
      omega
  have htb : (B + if bm = true then 128 else 0).testBit 7 = bm := by
    cases bm
    · show (B + 0).testBit 7 = false
      rw [Nat.testBit_to_div_mod]
      simp only [decide_eq_false_iff_not]
      omega
    · show (B + 128).testBit 7 = true
      rw [Nat.testBit_to_div_mod]
      simp only [decide_eq_true_eq]
      omega
  simp only [encodeZ, ZDecoder.new]
  rw [if_pos (show True ∧ True from ⟨trivial, trivial⟩)]
  rw [hmod, htb]

/-- C1: the round-trip. A legacy `compress` encoder (spec-modelled:
longest-match LZW over the seeded dictionary, shadowing the decoder's
table-growth and width rule, codes packed little-endian with zero
padding in the last byte, optional CLEARs in block mode chosen by an
arbitrary policy) at any supported `max_code_bits` (9-16) and either
block-mode setting produces a stream that `ZDecoder` decodes to end of
stream as exactly the original byte sequence. -/
theorem c1_round_trip (bm : Bool) (B : Nat) (pol : List Bool)
    (data : List Nat) (h9 : 9 ≤ B) (h16 : B ≤ 16)
    (hdata : ∀ b ∈ data, b < 256) :
    decompress (encodeZ bm B pol data) = .ok data := by
  have hI0 : EncInv (encInit bm B) []
      ⟨false, B, bm, 9, 2 ^ 9 - 1, seedPrefixes bm, seedChars bm, none⟩ :=
    encInv_start bm B ⟨false, B, bm, 9, 2 ^ 9 - 1, seedPrefixes bm,
      seedChars bm, none⟩ [] h9 rfl rfl rfl rfl rfl rfl rfl rfl (Or.inl rfl)
  obtain ⟨hrun, hwok, hbound⟩ := encMain data pol (encInit bm B) []
    ⟨false, B, bm, 9, 2 ^ 9 - 1, seedPrefixes bm, seedChars bm, none⟩
    hI0 hdata
  set P : List (Nat × Nat) := encodeLoop (encInit bm B) [] data pol
    with hPdef
  have hb9 : ∀ p ∈ P, 9 ≤ p.1 := fun p hp => (hbound p hp).1
  have hblt : ∀ p ∈ P, p.2 < 2 ^ p.1 := fun p hp => (hbound p hp).2
  have hpv : packVal P < 2 ^ sumW P := packVal_lt P hblt
  have hsge : 9 * P.length ≤ sumW P := sumW_ge P hb9
  have hfit : packVal P < 256 ^ ((sumW P + 7) / 8) := by
    have h8 : sumW P ≤ 8 * ((sumW P + 7) / 8) := by omega
    calc packVal P < 2 ^ sumW P := hpv
      _ ≤ 2 ^ (8 * ((sumW P + 7) / 8)) :=
          Nat.pow_le_pow_right (by norm_num) h8
      _ = 256 ^ ((sumW P + 7) / 8) := by
          rw [pow_mul]
          norm_num
  have hbv : bytesVal (natBytesLE (packVal P) ((sumW P + 7) / 8)) =
      packVal P := bytesVal_natBytesLE _ _ hfit
  have hlen : (encodeZ bm B pol data).length = (sumW P + 7) / 8 + 3 := by
    simp only [encodeZ, List.length_cons, natBytesLE_length]
  have hbr := runZ_eq_runCodes P ((sumW P + 7) / 8 + 3 + 1)
    ⟨false, B, bm, 9, 2 ^ 9 - 1, seedPrefixes bm, seedChars bm, none⟩
    0 0 (natBytesLE (packVal P) ((sumW P + 7) / 8))
    (by omega)
    rfl
    (le_refl 9)
    hwok
    hb9
    (by norm_num)
    (natBytesLE_lt _ _)
    (by simpa using hbv)
    (by rw [natBytesLE_length]; omega)
    (by rw [natBytesLE_length]; omega)
  unfold decompress
  rw [encodeZ_new bm B pol data h9 h16, hlen, ← hPdef, hbr, hrun]
  rfl

/-- C1 witness: a concrete block-mode round-trip through the decoder. -/
theorem c1_witness :
    (9 ≤ 12 ∧ 12 ≤ 16 ∧ ∀ b ∈ [65, 66, 65, 66, 65, 66, 67], b < 256) ∧
    decompress (encodeZ true 12 [] [65, 66, 65, 66, 65, 66, 67]) =
      .ok [65, 66, 65, 66, 65, 66, 67] :=
  ⟨⟨by norm_num, by norm_num, by decide⟩,
   c1_round_trip true 12 [] [65, 66, 65, 66, 65, 66, 67] (by norm_num)
     (by norm_num) (by decide)⟩

end Untar
